import Mathlib

/-!
Verification of the AFingerprint visualization code.

This file gives a shallow embedding of the Python modules
`src/visualization/plot_utils.py` and `src/visualization/audio_player.py`
and proves properties of the embedded functions.

Modelling conventions:
* Python `float` arithmetic is modelled by exact rational arithmetic (`ℚ`);
  the properties proved here concern order, bounds and exactly representable
  values, for which rounding is monotone and the exact model is faithful.
* Python `str` values are modelled as `List Char` (Python strings are
  sequences of Unicode code points, matching Lean's `Char` scalar values).
* Operations that can raise a Python exception (`ZeroDivisionError` from
  `/`, `ValueError` from `np.frombuffer` / `np.reshape`) return
  `Except String _`; the caller's `try`/`except` blocks become `match`es.
* `matplotlib` UI objects (`playback_line`, `time_display`, `play_button`,
  `status_text`) are modelled by the data the code stores into them.
-/

deriving instance DecidableEq for Except

namespace AFingerprint

/-- Python float division: raises `ZeroDivisionError` when the divisor is 0. -/
def pydiv (a b : ℚ) : Except String ℚ :=
  if b = 0 then .error "ZeroDivisionError" else .ok (a / b)

/-- Python `min` over a list (first element as the initial accumulator).
Python raises on an empty list; the code below only applies it to lists
that were checked to be non-empty, the `[]` case is arbitrary. -/
def pymin (l : List ℚ) : ℚ :=
  match l with
  | [] => 0
  | a :: rest => rest.foldl min a

/-- Python `max` over a list (first element as the initial accumulator). -/
def pymax (l : List ℚ) : ℚ :=
  match l with
  | [] => 0
  | a :: rest => rest.foldl max a

/-- The dictionary returned by `detect_and_normalize_amplitude_values`
(`plot_utils.py`).  The keys of the Python dict become fields. -/
structure NormResult where
  amplitudes : List ℚ
  original_amplitudes : List ℚ
  sizes : List ℚ
  is_absolute_log_scale : Bool
  amplitude_range : ℚ × ℚ
  amplitude_format : String
  size_multiplier : ℚ
deriving DecidableEq

/-- The piecewise-linear contrast enhancement applied to one linearly
normalized value (`plot_utils.py` lines 70-78), already scaled to 0-100.
`norm_val <= q2` maps through `(norm_val / q2) * 0.5`, the other branch
through `0.5 + ((norm_val - q2) / (1.0 - q2)) * 0.5`; both are then
multiplied by `100.0`.  The divisions are Python `/` and can raise. -/
def enhanceVal (q2 norm_val : ℚ) : Except String ℚ :=
  if norm_val ≤ q2 then
    (pydiv norm_val q2).map (fun t => t * (1/2) * 100)
  else
    (pydiv (norm_val - q2) (1 - q2)).map (fun t => (1/2 + t * (1/2)) * 100)

/-- The quartile `q2 = sorted_linear[n//2]` used by the piecewise mapping
(`plot_utils.py` lines 58-66): the middle element of the sorted linear
values when `n >= 4`, else the fallback `0.5`.  Python's `sorted` is
modelled by `List.insertionSort (· ≤ ·)`: both return the unique sorted
list with the same multiset of rational values. -/
def q2Of (linear : List ℚ) : ℚ :=
  if 4 ≤ linear.length then
    (linear.insertionSort (· ≤ ·)).getD (linear.length / 2) 0
  else (1/2 : ℚ)

/-- Embedding of `detect_and_normalize_amplitude_values` (`plot_utils.py`
lines 17-113).  A peak is the triple `[frequency, time, amplitude]`. -/
def detect_and_normalize_amplitude_values (peaks_data : List (ℚ × ℚ × ℚ)) :
    Except String NormResult :=
  match peaks_data with
  | [] => .ok { amplitudes := [], original_amplitudes := [], sizes := [],
                is_absolute_log_scale := true, amplitude_range := (0, 1),
                amplitude_format := ".1f", size_multiplier := 25 }
  | p0 :: rest => do
    let amplitudes := (p0 :: rest).map (fun p => p.2.2)
    let min_amp := pymin amplitudes
    let max_amp := pymax amplitudes
    let normalized_amplitudes ←
      if max_amp > min_amp then do
        let linear_normalized ←
          amplitudes.mapM (fun amp => pydiv (amp - min_amp) (max_amp - min_amp))
        let q2 := q2Of linear_normalized
        let enhanced_normalized ← linear_normalized.mapM (enhanceVal q2)
        pure enhanced_normalized
      else
        pure (List.replicate amplitudes.length (50 : ℚ))
    let sizes := normalized_amplitudes.map (fun norm_amp => 8 + 42 * (norm_amp / 100))
    pure { amplitudes := normalized_amplitudes,
           original_amplitudes := amplitudes,
           sizes := sizes,
           is_absolute_log_scale := true,
           amplitude_range := (min_amp, max_amp),
           amplitude_format := ".1f",
           size_multiplier := 42 }

/-- The pure value of one piecewise-enhanced normalized amplitude when no
exception occurs (`enhanceVal` with the divisions carried out). -/
def enhancePure (q2 v : ℚ) : ℚ :=
  if v ≤ q2 then v / q2 * (1/2) * 100
  else (1/2 + (v - q2) / (1 - q2) * (1/2)) * 100

/-- The amplitude column of a peak list. -/
def ampsOf (peaks : List (ℚ × ℚ × ℚ)) : List ℚ := peaks.map (fun p => p.2.2)

/-- The linearly normalized amplitudes `(a - min) / (max - min)`. -/
def linOf (peaks : List (ℚ × ℚ × ℚ)) : List ℚ :=
  (ampsOf peaks).map
    (fun a => (a - pymin (ampsOf peaks)) / (pymax (ampsOf peaks) - pymin (ampsOf peaks)))

/-! ### Embedding of `clean_filename_for_display` (`plot_utils.py` lines 116-201)

Python strings are `List Char`.  The two `re.sub` calls and the character
loop are implemented as structural scans so that every function computes
by kernel reduction. -/

/-- Python `str.isspace` / `re` `\s` (for `str` patterns): the Unicode
whitespace code points. -/
def pyIsSpace (c : Char) : Bool :=
  let n := c.toNat
  (0x9 ≤ n && n ≤ 0xD) || (0x1C ≤ n && n ≤ 0x1F) || n == 0x20 || n == 0x85 ||
    n == 0xA0 || n == 0x1680 || (0x2000 ≤ n && n ≤ 0x200A) || n == 0x2028 ||
    n == 0x2029 || n == 0x202F || n == 0x205F || n == 0x3000

/-- The extra punctuation admitted by `is_safe_char`'s final membership
test (`plot_utils.py` line 164).  The Python source writes the operand
with ASCII quotes; the `''` in the middle closes and reopens the literal
(adjacent-literal concatenation), so the parsed value is the
concatenation of `'。，、；：？！""'` and `'（）【】《》'` — it contains two
ASCII `"` characters and no curly quotes. -/
def extraSafeChars : List Char := "。，、；：？！\x22\x22（）【】《》".data

/-- The predicate `is_safe_char` from `clean_filename_for_display`: basic ASCII, Latin-1
supplement, CJK unified ideographs, CJK punctuation block, and the listed
extra punctuation characters. -/
def is_safe_char (c : Char) : Bool :=
  let code := c.toNat
  (0x20 ≤ code && code ≤ 0x7E) ||
  (0xA0 ≤ code && code ≤ 0xFF) ||
  (0x4E00 ≤ code && code ≤ 0x9FFF) ||
  (0x3000 ≤ code && code ≤ 0x303F) ||
  extraSafeChars.contains c

/-- One step of Python `str.replace(key, repl)`: `skip` counts characters of
a just-matched `key` occurrence still to be consumed.  Scans left to right,
non-overlapping, exactly like CPython. -/
def pyReplaceGo (key repl : List Char) : ℕ → List Char → List Char
  | _, [] => []
  | Nat.succ k, _ :: rest => pyReplaceGo key repl k rest
  | 0, c :: rest =>
    if key ≠ [] && key.isPrefixOf (c :: rest) then
      repl ++ pyReplaceGo key repl (key.length - 1) rest
    else
      c :: pyReplaceGo key repl 0 rest

/-- Python `s.replace(key, repl)`. -/
def pyReplace (s key repl : List Char) : List Char := pyReplaceGo key repl 0 s

/-- The `emoji_replacements` dict, in its Python insertion order.  `'❤️'` is
the two-code-point sequence U+2764 U+FE0F. -/
def emoji_replacements : List (List Char × List Char) :=
  [("🥴".data, "[dizzy]".data),
   ("😍".data, "[heart_eyes]".data),
   ("😀".data, "[smile]".data),
   ("😂".data, "[laugh]".data),
   ("😊".data, "[happy]".data),
   ("👍".data, "[thumbs_up]".data),
   ("❤️".data, "[heart]".data),
   ("🔥".data, "[fire]".data),
   ("💯".data, "[100]".data),
   ("🎵".data, "[music]".data),
   ("🎶".data, "[notes]".data),
   ("🎮".data, "[game]".data),
   ("🏆".data, "[trophy]".data),
   ("⭐".data, "[star]".data),
   ("✨".data, "[sparkle]".data)]

/-- The `for emoji, replacement in emoji_replacements.items()` loop. -/
def applyEmoji (s : List Char) : List Char :=
  emoji_replacements.foldl (fun acc p => pyReplace acc p.1 p.2) s

/-- The character-filter loop of `clean_filename_for_display` (lines
168-183): safe characters pass through, each maximal run of unsafe
characters becomes one `[?]` placeholder.  `inUnsafe` records that the scan
is inside an unsafe run whose placeholder was already emitted. -/
def cleanLoop : Bool → List Char → List Char
  | _, [] => []
  | inUnsafe, c :: rest =>
    if is_safe_char c then c :: cleanLoop false rest
    else if inUnsafe then cleanLoop true rest
    else '[' :: '?' :: ']' :: cleanLoop true rest

/-- Model of `re.sub(r'\[?\?\]+', '[?]', s)` (line 188): each leftmost match — an
optional `[`, a `?`, and a greedy run of `]` — is replaced by `[?]`.
`skip` records that the scan is inside the greedy `]`-run of a match whose
replacement was already emitted. -/
def mergePlaceholders : Bool → List Char → List Char
  | _, [] => []
  | skip, ']' :: rest =>
    if skip then mergePlaceholders true rest else ']' :: mergePlaceholders false rest
  | _, '?' :: ']' :: rest => '[' :: '?' :: ']' :: mergePlaceholders true rest
  | _, '[' :: '?' :: ']' :: rest => '[' :: '?' :: ']' :: mergePlaceholders true rest
  | _, c :: rest => c :: mergePlaceholders false rest

/-- Model of `re.sub(r'\s+', ' ', s)` (line 189): each maximal whitespace run
becomes a single space.  `inWs` records that the current run's space was
already emitted. -/
def mergeSpaces : Bool → List Char → List Char
  | _, [] => []
  | inWs, c :: rest =>
    if pyIsSpace c then
      (if inWs then mergeSpaces true rest else ' ' :: mergeSpaces true rest)
    else c :: mergeSpaces false rest

/-- Remove a maximal run of trailing whitespace. -/
def dropTrailingWs : List Char → List Char
  | [] => []
  | c :: rest =>
    let r := dropTrailingWs rest
    if r = [] && pyIsSpace c then [] else c :: r

/-- Python `str.strip()` with no arguments: remove leading and trailing
whitespace. -/
def pystrip (s : List Char) : List Char := dropTrailingWs (s.dropWhile pyIsSpace)

/-- The `'[?]'` placeholder. -/
def placeholder : List Char := ['[', '?', ']']

/-- Embedding of `clean_filename_for_display` (`plot_utils.py` 116-201):
empty input returned as is; emoji replacements; character filter; the two
`re.sub` normalizations; `strip`; and the final fallback to
`"audio_file"` when nothing but placeholders and spaces remains. -/
def clean_filename_for_display (filename : List Char) : List Char :=
  if filename = [] then filename
  else
    let s1 := applyEmoji filename
    let s2 := cleanLoop false s1
    let s3 := mergePlaceholders false s2
    let s4 := mergeSpaces false s3
    let result := pystrip s4
    if result = [] || pystrip (pyReplace result placeholder []) = [] then
      "audio_file".data
    else result

/-- Scan predicate: every leftmost-greedy match of `\[?\?\]+` in the string
is exactly `[?]`.  On such strings `mergePlaceholders` is the identity. -/
def okPlaceholders : List Char → Bool
  | [] => true
  | '[' :: '?' :: ']' :: ']' :: _ => false
  | '[' :: '?' :: ']' :: rest => okPlaceholders rest
  | '?' :: ']' :: _ => false
  | _ :: rest => okPlaceholders rest

/-- Every whitespace character is a plain space and no two whitespace
characters are adjacent.  On such strings `mergeSpaces` is the identity. -/
def singleSpaces : List Char → Bool
  | [] => true
  | [c] => !(pyIsSpace c) || c == ' '
  | c :: d :: rest =>
    ((!(pyIsSpace c)) || (c == ' ' && !(pyIsSpace d))) && singleSpaces (d :: rest)

/-! ### Embedding of `AudioPlayer` (`audio_player.py`)

The mutable object becomes a state record; methods are state
transformers.  Starting the playback thread is modelled by the returned
`Option ℤ` (the start sample handed to the worker, `none` when no thread
is spawned) together with the `playback_thread` field. -/

/-- The `self.data` array: a flat (mono) or reshaped (multi-channel) sample array.
A `float32` sample is represented by its 32-bit little-endian bit pattern
(an injective encoding; no claim inspects float sample values). -/
inductive AudioData where
  | mono : List ℤ → AudioData
  | multi : List (List ℤ) → AudioData
deriving DecidableEq

/-- Model of `len(self.data)`: number of rows for a 2-D array. -/
def AudioData.len : AudioData → ℕ
  | .mono l => l.length
  | .multi f => f.length

/-- Which prefix (`"Source:"` / `"Query:"` / none) the time-display text
carries; the code preserves it when rewriting the text. -/
inductive DispKind where
  | source
  | query
  | plain
deriving DecidableEq

/-- The content the code writes into `self.time_display`. -/
structure TimeDisp where
  kind : DispKind
  mins : ℤ
  secs : ℤ
deriving DecidableEq

/-- State of an `AudioPlayer` object (fields of `__init__`). -/
structure AudioPlayer where
  data : Option AudioData
  samplerate : ℕ
  duration : ℚ
  playing : Bool
  current_time : ℚ
  has_finished : Bool
  update_needed : Bool
  playback_position : ℤ
  playback_thread : Option ℤ
  playback_line : Option ℚ
  time_display : Option TimeDisp
  status_text : Option String
  play_button : Option String
deriving DecidableEq

/-- The field initialization of `AudioPlayer.__init__` (lines 22-38),
before `load_audio` runs.  Python's `samplerate = None` is modelled by 0
(the value is only read after a successful load sets it). -/
def initPlayer : AudioPlayer :=
  { data := none, samplerate := 0, duration := 0, playing := false,
    current_time := 0, has_finished := false, update_needed := false,
    playback_position := 0, playback_thread := none, playback_line := none,
    time_display := none, status_text := none, play_button := none }

/-- Python `int()` on a float/rational: truncation toward zero. -/
def pyint (q : ℚ) : ℤ := q.num.tdiv q.den

/-- Python `needle in hay` for strings: substring test. -/
def pyIn (needle hay : String) : Bool :=
  hay.data.tails.any (fun t => needle.data.isPrefixOf t)

/-- The time-display update (`audio_player.py` 313-327 and 352-366):
`mins = int(t) // 60`, `secs = int(t) % 60` (Python floor division and
nonnegative remainder), keeping the existing prefix. -/
def setTimeText (ct : ℚ) (td : TimeDisp) : TimeDisp :=
  { kind := td.kind, mins := (pyint ct).ediv 60, secs := (pyint ct).emod 60 }

/-- The playback-line and time-display updates shared by `seek` (309-327)
and `update_ui` (348-366). -/
def updateDisplayFields (st : AudioPlayer) : AudioPlayer :=
  { st with
    playback_line := st.playback_line.map (fun _ => st.current_time),
    time_display := st.time_display.map (setTimeText st.current_time) }

/-- The play-button label rewrite on completion (`update_ui` 370-378). -/
def finishLabel (lbl : String) : String :=
  if pyIn "Source" lbl then "Play Source"
  else if pyIn "Query" lbl then "Play Query"
  else "Play"

/-- Embedding of `AudioPlayer.update_ui` (lines 342-384). -/
def update_ui (st : AudioPlayer) : AudioPlayer × Bool :=
  if st.update_needed = false then (st, false)
  else
    let st1 := updateDisplayFields st
    let st2 :=
      if st1.has_finished && st1.play_button.isSome then
        { st1 with play_button := st1.play_button.map finishLabel }
      else st1
    ({ st2 with update_needed := false }, true)

/-- Embedding of `AudioPlayer.stop` (lines 292-298). -/
def stop (st : AudioPlayer) : AudioPlayer :=
  { st with
    playing := false,
    status_text := st.status_text.map (fun _ => "Stopped"),
    has_finished := false }

/-- Embedding of `AudioPlayer.play` (lines 117-165).  `support` is the
module-level `AUDIO_SUPPORT` flag.  Returns the new state and the start
sample handed to the spawned playback thread (`none`: no thread). -/
def play (support : Bool) (st : AudioPlayer) (start_time : ℚ) : AudioPlayer × Option ℤ :=
  if support = false then (st, none)
  else
    match st.data with
    | none => (st, none)
    | some d =>
      if st.playing then (st, none)
      else
        let st1 := { st with has_finished := false }
        let s0 : ℤ := pyint (start_time * st.samplerate)
        let start_sample : ℤ := if (d.len : ℤ) ≤ s0 then 0 else s0
        let st2 :=
          { st1 with
            playback_position := start_sample,
            current_time := start_time,
            playing := true,
            status_text := st1.status_text.map (fun _ => "Playing"),
            playback_thread := some start_sample }
        (st2, some start_sample)

/-- Embedding of `AudioPlayer.seek` (lines 300-333). -/
def seek (support : Bool) (st : AudioPlayer) (time_position : ℚ) : AudioPlayer × Option ℤ :=
  match st.data with
  | none => (st, none)
  | some _ =>
    let was_playing := st.playing
    let st1 := stop st
    let st2 := { st1 with current_time := time_position }
    let st3 := updateDisplayFields st2
    if was_playing then
      let r := play support st3 st3.current_time
      ({ r.1 with has_finished := false }, r.2)
    else
      ({ st3 with has_finished := false }, none)

/-- The natural end of `_playback_worker_impl` (lines 241-244): the worker
marks the playback finished and requests a UI update.  Note that it does
not clear `playing`. -/
def finishPlayback (st : AudioPlayer) : AudioPlayer :=
  { st with has_finished := true, update_needed := true }

/-! ### Embedding of `AudioPlayer.load_audio` (lines 46-115) -/

/-- The module-level PCM constants from `config.py`, as a record so that
claims about other configured values can be stated. -/
structure PCMConfig where
  sample_rate : ℕ
  channels : ℕ
  format : String
  sample_width : ℕ
deriving DecidableEq

/-- Values from `config.py` lines 26-30. -/
def defaultPCMConfig : PCMConfig := ⟨44100, 1, "int16", 2⟩

/-- An audio file on disk: its path and its raw bytes (each < 256). -/
structure PyFile where
  name : String
  bytes : List ℕ
deriving DecidableEq

/-- A little-endian signed 16-bit sample from two bytes. -/
def int16OfBytes (lo hi : ℕ) : ℤ :=
  let u := lo + 256 * hi
  if u < 32768 then (u : ℤ) else (u : ℤ) - 65536

/-- A little-endian signed 32-bit sample from four bytes. -/
def int32OfBytes (b0 b1 b2 b3 : ℕ) : ℤ :=
  let u := b0 + 256 * b1 + 65536 * b2 + 16777216 * b3
  if u < 2147483648 then (u : ℤ) else (u : ℤ) - 4294967296

/-- Model of `np.frombuffer(_, dtype=np.int16)`: fails unless the byte count is a
multiple of 2. -/
def fromBufferInt16 : List ℕ → Except String (List ℤ)
  | [] => .ok []
  | [_] => .error "ValueError: buffer size must be a multiple of element size"
  | lo :: hi :: rest => (fromBufferInt16 rest).map (fun l => int16OfBytes lo hi :: l)

/-- Model of `np.frombuffer(_, dtype=np.int32)`: fails unless the byte count is a
multiple of 4. -/
def fromBufferInt32 : List ℕ → Except String (List ℤ)
  | [] => .ok []
  | b0 :: b1 :: b2 :: b3 :: rest => (fromBufferInt32 rest).map (fun l => int32OfBytes b0 b1 b2 b3 :: l)
  | _ => .error "ValueError: buffer size must be a multiple of element size"

/-- Model of `np.frombuffer(_, dtype=np.float32)`: fails unless the byte count is a
multiple of 4.  Each float is represented by its 32-bit bit pattern. -/
def fromBufferFloat32 : List ℕ → Except String (List ℤ)
  | [] => .ok []
  | b0 :: b1 :: b2 :: b3 :: rest =>
    (fromBufferFloat32 rest).map (fun l => ((b0 + 256 * b1 + 65536 * b2 + 16777216 * b3 : ℕ) : ℤ) :: l)
  | _ => .error "ValueError: buffer size must be a multiple of element size"

/-- The dtype dispatch of `load_audio` lines 69-77 (unknown formats default
to `int16`). -/
def fromBuffer (format : String) (bytes : List ℕ) : Except String (List ℤ) :=
  if format = "int16" then fromBufferInt16 bytes
  else if format = "int32" then fromBufferInt32 bytes
  else if format = "float32" then fromBufferFloat32 bytes
  else fromBufferInt16 bytes

/-- Split a list into consecutive rows of `c` elements; `fuel` bounds the
recursion (called with the list length). -/
def chunksGo (c : ℕ) : ℕ → List ℤ → List (List ℤ)
  | 0, _ => []
  | _ + 1, [] => []
  | fuel + 1, l => l.take c :: chunksGo c fuel (l.drop c)

/-- Model of `data.reshape(-1, c)`: `ValueError` unless the length is a positive
multiple of `c`; otherwise the rows of width `c`. -/
def reshapeRows (c : ℕ) (l : List ℤ) : Except String (List (List ℤ)) :=
  if c ≠ 0 && l.length % c == 0 then .ok (chunksGo c l.length l)
  else .error "ValueError: cannot reshape array"

/-- The raw-PCM decode of the `.pcm` branch (lines 60-82): `frombuffer`
with the configured dtype, then `reshape(-1, channels)` when the
configured channel count exceeds 1. -/
def decodePcm (cfg : PCMConfig) (bytes : List ℕ) : Except String AudioData :=
  match fromBuffer cfg.format bytes with
  | .error e => .error e
  | .ok samples =>
    if 1 < cfg.channels then
      match reshapeRows cfg.channels samples with
      | .error e => .error e
      | .ok frames => .ok (.multi frames)
    else .ok (.mono samples)

/-- Index (from the start) of the last occurrence of `c`. -/
def lastIndexOfChar (c : Char) : List Char → Option ℕ
  | [] => none
  | a :: rest =>
    match lastIndexOfChar c rest with
    | some i => some (i + 1)
    | none => if a = c then some 0 else none

/-- The path component after the last `/`. -/
def afterLastSlash : List Char → List Char
  | [] => []
  | c :: rest =>
    if rest.contains '/' then afterLastSlash rest
    else if c = '/' then rest else c :: rest

/-- Model of `os.path.splitext(p)[1]` for a POSIX path: the suffix from the last
dot of the basename, empty when the basename has no dot or consists of
leading dots only. -/
def pySplitextExt (path : List Char) : List Char :=
  let base := afterLastSlash path
  match lastIndexOfChar '.' base with
  | none => []
  | some d => if (base.take d).any (fun c => c ≠ '.') then base.drop d else []

/-- Python `str.lower()` (ASCII range; the `.pcm` comparison only
involves ASCII). -/
def pyLower (l : List Char) : List Char := l.map Char.toLower

/-- The `.pcm` branch of the `try` block (lines 55-88): on success the
mutated state, on an exception the state as mutated up to the raise
point (`frombuffer`/`reshape` raise before any field is assigned;
the duration division at line 87 would raise after `data` and
`samplerate` are set). -/
def tryPcmBranch (cfg : PCMConfig) (st : AudioPlayer) (bytes : List ℕ) :
    Except AudioPlayer AudioPlayer :=
  match decodePcm cfg bytes with
  | .error _ => .error st
  | .ok d =>
    let st1 := { st with data := some d, samplerate := cfg.sample_rate }
    match pydiv (d.len : ℚ) ((cfg.sample_rate : ℚ) * 1) with
    | .error _ => .error st1
    | .ok dur => .ok { st1 with duration := dur }

/-- The `sf.read` branch (lines 90-92).  `sfRead` is the outcome of the
external decoder, an oracle parameter of the model. -/
def trySfBranch (sfRead : Except String (AudioData × ℕ)) (st : AudioPlayer) :
    Except AudioPlayer AudioPlayer :=
  match sfRead with
  | .error _ => .error st
  | .ok (d, sr) =>
    let st1 := { st with data := some d, samplerate := sr }
    match pydiv (d.len : ℚ) (sr : ℚ) with
    | .error _ => .error st1
    | .ok dur => .ok { st1 with duration := dur }

/-- The whole `try` body of `load_audio` (lines 51-94): dispatch on the
lowercased extension. -/
def primaryAttempt (cfg : PCMConfig) (sfRead : Except String (AudioData × ℕ))
    (st : AudioPlayer) (f : PyFile) : Except AudioPlayer AudioPlayer :=
  if pySplitextExt (pyLower f.name.data) = ".pcm".data then tryPcmBranch cfg st f.bytes
  else trySfBranch sfRead st

/-- The raw-PCM fallback in the `except` block (lines 99-112): the entire
file decoded as flat `int16` at the configured default rate. -/
def fallbackAttempt (cfg : PCMConfig) (st : AudioPlayer) (bytes : List ℕ) :
    Except AudioPlayer AudioPlayer :=
  match fromBufferInt16 bytes with
  | .error _ => .error st
  | .ok samples =>
    let st1 := { st with data := some (.mono samples), samplerate := cfg.sample_rate }
    match pydiv (samples.length : ℚ) (cfg.sample_rate : ℚ) with
    | .error _ => .error st1
    | .ok dur => .ok { st1 with duration := dur }

/-- Embedding of `AudioPlayer.load_audio` (lines 46-115).  `file = none`
models a missing/None `audio_file` (the `os.path.exists` guard). -/
def load_audio (cfg : PCMConfig) (support : Bool) (sfRead : Except String (AudioData × ℕ))
    (st : AudioPlayer) (file : Option PyFile) : AudioPlayer × Bool :=
  if support = false then (st, false)
  else
    match file with
    | none => (st, false)
    | some f =>
      match primaryAttempt cfg sfRead st f with
      | .ok st1 => (st1, true)
      | .error stE =>
        match fallbackAttempt cfg stE f.bytes with
        | .ok st2 => (st2, true)
        | .error st3 => (st3, false)

/-! ### Concrete fixtures used by witnesses and counterexamples -/

/-- A config differing from the default only in `PCM_CHANNELS = 2`. -/
def cfgStereo : PCMConfig :=
  { sample_rate := 44100, channels := 2, format := "int16", sample_width := 2 }

/-- A 6-byte `.pcm` file: three little-endian `int16` samples `0, 1, 2`
(one full stereo frame plus a trailing partial frame). -/
def pcmFilePartial : PyFile := { name := "a.pcm", bytes := [0, 0, 1, 0, 2, 0] }

/-- A 3-byte (odd-length) `.pcm` file. -/
def pcmFileOdd : PyFile := { name := "a.pcm", bytes := [1, 2, 3] }

/-- A peak list whose linearly normalized amplitude median is zero:
amplitudes `0, 0, 0, 1`. -/
def peaksZeroMedian : List (ℚ × ℚ × ℚ) := [(1, 1, 0), (1, 1, 0), (1, 1, 0), (1, 1, 1)]

/-- A player whose playback just reached the end of the buffer (before
the worker's final marks). -/
def donePlayer : AudioPlayer :=
  { initPlayer with
    data := some (.mono [0, 0, 0, 0]), samplerate := 2,
    duration := 2, playing := true, play_button := some "Play" }

/-- State of `donePlayer` after the worker's natural-completion marks. -/
def finishedPlayer : AudioPlayer := finishPlayback donePlayer

/-- A loaded player (3 samples at 2 Hz), used by several witnesses. -/
def loadedPlayer : AudioPlayer :=
  { initPlayer with data := some (.mono [0, 0, 0]), samplerate := 2 }

/-- The `loadedPlayer` state marked as currently playing. -/
def playingPlayer : AudioPlayer :=
  { loadedPlayer with playing := true }

/-- A dataless player marked as playing (for the misuse no-ops). -/
def misusePlayer : AudioPlayer :=
  { initPlayer with playing := true }

/-! ## Theorems -/

/-- Lemma: `update_ui` never writes `has_finished`: on every path the flag of the
result equals the flag of the input. -/
theorem update_ui_preserves_has_finished (st : AudioPlayer) :
    (update_ui st).1.has_finished = st.has_finished := by
  unfold update_ui updateDisplayFields
  split
  · rfl
  · dsimp only
    split <;> rfl

/-- C1 counterexample: after a playback run completes naturally
(`finishPlayback` sets `finished`), the first `update_ui` call leaves
`has_finished = true` — the claim that it clears the flag (so that the
second call observes `false`) is false at this concrete state. -/
theorem update_ui_keeps_finished_counterexample :
    ¬ ((update_ui finishedPlayer).1.has_finished = false) := by
  decide

/-- C1 (amended): after a natural completion, the first `update_ui` call
signals the completion (rewrites the button label) and clears
`update_needed` — not `finished` — so the second consecutive call
returns `false` and changes nothing: the signal still fires exactly once
per completed playback, but `has_finished` remains `true` until `play`,
`stop` or `seek` clears it. -/
theorem update_ui_signals_once (st : AudioPlayer) (lbl : String)
    (hbtn : st.play_button = some lbl) :
    (update_ui (finishPlayback st)).2 = true ∧
    (update_ui (finishPlayback st)).1.play_button = some (finishLabel lbl) ∧
    (update_ui (finishPlayback st)).1.update_needed = false ∧
    (update_ui (finishPlayback st)).1.has_finished = true ∧
    (update_ui (update_ui (finishPlayback st)).1).2 = false ∧
    (update_ui (update_ui (finishPlayback st)).1).1 = (update_ui (finishPlayback st)).1 := by
  simp [update_ui, finishPlayback, updateDisplayFields, hbtn]

/-- Witness for `update_ui_signals_once` at the concrete completed
state. -/
theorem update_ui_signals_once_witness :
    (update_ui finishedPlayer).2 = true ∧
    (update_ui finishedPlayer).1.play_button = some (finishLabel "Play") ∧
    (update_ui finishedPlayer).1.update_needed = false ∧
    (update_ui finishedPlayer).1.has_finished = true ∧
    (update_ui (update_ui finishedPlayer).1).2 = false ∧
    (update_ui (update_ui finishedPlayer).1).1 = (update_ui finishedPlayer).1 :=
  update_ui_signals_once donePlayer "Play" rfl

/-- C4: with samples loaded, `seek T` leaves `current_time = T`, clears
the finished flag, hands a start sample to a new playback thread exactly
when playback was active when `seek` was called (the `play` resume), and
restores the playing flag accordingly; with no samples loaded it is a
no-op. -/
theorem seek_spec (st : AudioPlayer) (t : ℚ) :
    (st.data = none → seek true st t = (st, none)) ∧
    (∀ d, st.data = some d →
      (seek true st t).1.current_time = t ∧
      (seek true st t).1.has_finished = false ∧
      (seek true st t).2.isSome = st.playing ∧
      (seek true st t).1.playing = st.playing) := by
  constructor
  · intro h
    simp [seek, h]
  · intro d hd
    cases hp : st.playing <;>
      simp [seek, hd, hp, stop, play, updateDisplayFields]

/-- Witness for `seek_spec`: a loaded, playing player seeked to 2s. -/
theorem seek_spec_witness :
    (seek true playingPlayer 2).1.current_time = 2 ∧
    (seek true playingPlayer 2).1.has_finished = false ∧
    (seek true playingPlayer 2).2.isSome = playingPlayer.playing ∧
    (seek true playingPlayer 2).1.playing = playingPlayer.playing :=
  (seek_spec playingPlayer 2).2 (.mono [0, 0, 0]) rfl

/-- C5: when `int(start_time * samplerate)` reaches the sample count,
`play` clamps the start position to sample 0 and starts playback (thread
spawned with start sample 0, `playing = true`) instead of erroring. -/
theorem play_clamps_out_of_range (st : AudioPlayer) (d : AudioData) (t : ℚ)
    (hd : st.data = some d) (hp : st.playing = false)
    (hover : (d.len : ℤ) ≤ pyint (t * st.samplerate)) :
    (play true st t).2 = some 0 ∧
    (play true st t).1.playback_position = 0 ∧
    (play true st t).1.playing = true := by
  simp [play, hd, hp, hover]

/-- Witness for `play_clamps_out_of_range`: 3 samples at 2 Hz, played
from t = 5s (sample 10). -/
theorem play_clamps_out_of_range_witness :
    (play true loadedPlayer 5).2 = some 0 ∧
    (play true loadedPlayer 5).1.playback_position = 0 ∧
    (play true loadedPlayer 5).1.playing = true :=
  play_clamps_out_of_range loadedPlayer (.mono [0, 0, 0]) 5 rfl rfl
    (by norm_num [pyint, AudioData.len, loadedPlayer, initPlayer])

/-- C6: misuse of the playback operations is a silent no-op: `play` with
no samples loaded, `play` while already playing, and `seek` with no
samples loaded each return the state completely unchanged and spawn no
playback thread. -/
theorem misuse_is_noop (st : AudioPlayer) (t : ℚ) :
    (st.data = none → play true st t = (st, none)) ∧
    (st.playing = true → play true st t = (st, none)) ∧
    (st.data = none → seek true st t = (st, none)) := by
    refine ⟨fun h => ?_, fun h => ?_, fun h => ?_⟩
    · simp [play, h]
    · cases hd : st.data <;> simp [play, h, hd]
    · simp [seek, h]

/-- Witness for `misuse_is_noop`: a dataless player marked playing. -/
theorem misuse_is_noop_witness :
    (play true misusePlayer 1 = (misusePlayer, none)) ∧
    (play true misusePlayer 1 = (misusePlayer, none)) ∧
    (seek true misusePlayer 1 = (misusePlayer, none)) :=
  ⟨(misuse_is_noop misusePlayer 1).1 rfl,
   (misuse_is_noop misusePlayer 1).2.1 rfl,
   (misuse_is_noop misusePlayer 1).2.2 rfl⟩

/-- Lemma: `np.frombuffer(_, int16)` fails exactly on odd byte counts. -/
theorem fromBufferInt16_odd (l : List ℕ) (h : l.length % 2 = 1) :
    fromBufferInt16 l = .error "ValueError: buffer size must be a multiple of element size" := by
  induction l using fromBufferInt16.induct with
  | case1 => simp at h
  | case2 => rfl
  | case3 lo hi rest ih =>
    have hr : rest.length % 2 = 1 := by
      simp [List.length_cons, Nat.add_mod] at h ⊢
      omega
    simp [fromBufferInt16, ih hr, Except.map]

/-- C3: `load_audio` is a total boolean-returning function; whenever the
extension-dispatched primary decode raises (`primaryAttempt` errors), the
call is retried as a raw 16-bit-int PCM decode of the entire file at the
configured default rate, whose own success or failure alone decides the
`true`/`false` result — no exception propagates. -/
theorem load_audio_fallback (cfg : PCMConfig) (sfRead : Except String (AudioData × ℕ))
    (st stE : AudioPlayer) (f : PyFile)
    (hp : primaryAttempt cfg sfRead st f = .error stE) :
    (load_audio cfg true sfRead st (some f) =
      match fallbackAttempt cfg stE f.bytes with
      | .ok st2 => (st2, true)
      | .error st3 => (st3, false)) ∧
    (∀ st2, fallbackAttempt cfg stE f.bytes = .ok st2 →
      ∃ samples, fromBufferInt16 f.bytes = .ok samples ∧
        st2.data = some (.mono samples) ∧ st2.samplerate = cfg.sample_rate) ∧
    (∀ st3, fallbackAttempt cfg stE f.bytes = .error st3 →
      load_audio cfg true sfRead st (some f) = (st3, false)) := by
  refine ⟨?_, ?_, ?_⟩
  · simp [load_audio, hp]
  · intro st2 h2
    unfold fallbackAttempt at h2
    cases hb : fromBufferInt16 f.bytes with
    | error e => simp [hb] at h2
    | ok samples =>
      refine ⟨samples, rfl, ?_⟩
      rw [hb] at h2
      dsimp only at h2
      rcases hd : pydiv (samples.length : ℚ) (cfg.sample_rate : ℚ) with e | dur <;>
        rw [hd] at h2
      · cases h2
      · cases h2
        exact ⟨rfl, rfl⟩
  · intro st3 h3
    simp [load_audio, hp, h3]

/-- Witness for `load_audio_fallback`: a `.bin` file with the external
decoder unavailable and an odd byte count, so primary and fallback both
fail and the call reports `false`. -/
theorem load_audio_fallback_witness :
    (load_audio defaultPCMConfig true (.error "sf failed") initPlayer
        (some { name := "a.bin", bytes := [1, 2, 3] }) =
      match fallbackAttempt defaultPCMConfig initPlayer [1, 2, 3] with
      | .ok st2 => (st2, true)
      | .error st3 => (st3, false)) ∧
    (∀ st2, fallbackAttempt defaultPCMConfig initPlayer [1, 2, 3] = .ok st2 →
      ∃ samples, fromBufferInt16 [1, 2, 3] = .ok samples ∧
        st2.data = some (.mono samples) ∧ st2.samplerate = defaultPCMConfig.sample_rate) ∧
    (∀ st3, fallbackAttempt defaultPCMConfig initPlayer [1, 2, 3] = .error st3 →
      load_audio defaultPCMConfig true (.error "sf failed") initPlayer
        (some { name := "a.bin", bytes := [1, 2, 3] }) = (st3, false)) :=
  load_audio_fallback defaultPCMConfig (.error "sf failed") initPlayer initPlayer
    { name := "a.bin", bytes := [1, 2, 3] } rfl

/-- C10: with `int16` configured, `load_audio` on a `.pcm` file with an
odd number of bytes fails in the primary decode and again in the raw-PCM
fallback, returns `false`, and leaves the state — in particular
`data = none` — untouched. -/
theorem load_audio_odd_bytes (cfg : PCMConfig) (sfRead : Except String (AudioData × ℕ))
    (st : AudioPlayer) (f : PyFile)
    (hfmt : cfg.format = "int16")
    (hext : pySplitextExt (pyLower f.name.data) = ".pcm".data)
    (hodd : f.bytes.length % 2 = 1)
    (hdata : st.data = none) :
    load_audio cfg true sfRead st (some f) = (st, false) ∧
    (load_audio cfg true sfRead st (some f)).1.data = none := by
  have herr := fromBufferInt16_odd f.bytes hodd
  have hmain : load_audio cfg true sfRead st (some f) = (st, false) := by
    simp [load_audio, primaryAttempt, hext, if_pos, tryPcmBranch, decodePcm,
      fromBuffer, hfmt, if_pos, herr, fallbackAttempt]
  exact ⟨hmain, by rw [hmain]; exact hdata⟩

/-- Witness for `load_audio_odd_bytes`: the 3-byte `.pcm` file. -/
theorem load_audio_odd_bytes_witness :
    load_audio defaultPCMConfig true (.error "sf failed") initPlayer (some pcmFileOdd) =
      (initPlayer, false) ∧
    (load_audio defaultPCMConfig true (.error "sf failed") initPlayer (some pcmFileOdd)).1.data = none :=
  load_audio_odd_bytes defaultPCMConfig (.error "sf failed") initPlayer pcmFileOdd
    rfl (by decide) (by decide) rfl

/-- C7 counterexample: with `PCM_CHANNELS = 2` configured, loading a
`.pcm` file holding three `int16` samples (one full frame plus a partial
frame) succeeds but produces the flat mono array `[0, 1, 2]` — all three
samples, one-dimensional — not the full frames with the partial frame
dropped that the claim describes. -/
theorem pcm_partial_frame_counterexample :
    (load_audio cfgStereo true (.error "sf failed") initPlayer (some pcmFilePartial)).1.data =
      some (.mono [0, 1, 2]) ∧
    (load_audio cfgStereo true (.error "sf failed") initPlayer (some pcmFilePartial)).2 = true := by
  constructor
  · norm_num [load_audio, primaryAttempt, tryPcmBranch, fallbackAttempt, decodePcm,
      fromBuffer, reshapeRows, pydiv, cfgStereo, pcmFilePartial]
    decide
  · norm_num [load_audio, primaryAttempt, tryPcmBranch, fallbackAttempt, decodePcm,
      fromBuffer, reshapeRows, pydiv, cfgStereo, pcmFilePartial]
    decide

/-- C7 (amended): with a configured channel count above 1 and a `.pcm`
sample count not divisible by it, `reshape(-1, channels)` raises; the
fallback then reloads the entire file as a flat mono `int16` stream at
the default rate — the load succeeds, but nothing is reshaped and the
partial frame's samples are kept. -/
theorem pcm_partial_frame_falls_back (cfg : PCMConfig) (sfRead : Except String (AudioData × ℕ))
    (st : AudioPlayer) (f : PyFile) (samples : List ℤ)
    (hfmt : cfg.format = "int16")
    (hch : 1 < cfg.channels)
    (hext : pySplitextExt (pyLower f.name.data) = ".pcm".data)
    (hok : fromBufferInt16 f.bytes = .ok samples)
    (hrem : samples.length % cfg.channels ≠ 0)
    (hrate : cfg.sample_rate ≠ 0) :
    load_audio cfg true sfRead st (some f) =
      ({ st with
          data := some (.mono samples),
          samplerate := cfg.sample_rate,
          duration := (samples.length : ℚ) / (cfg.sample_rate : ℚ) }, true) := by
  have hns : (cfg.sample_rate : ℚ) ≠ 0 := by exact_mod_cast hrate
  simp only [load_audio, primaryAttempt, hext, if_pos, tryPcmBranch, decodePcm, fromBuffer,
    hfmt, if_pos, hok, hch, if_true, reshapeRows, hrem, fallbackAttempt, pydiv, hns]
  simp [hch, hrem, hns]

/-- Witness for `pcm_partial_frame_falls_back` at the stereo config and
the 3-sample file. -/
theorem pcm_partial_frame_falls_back_witness :
    load_audio cfgStereo true (.error "sf failed") initPlayer (some pcmFilePartial) =
      ({ initPlayer with
          data := some (.mono [0, 1, 2]),
          samplerate := cfgStereo.sample_rate,
          duration := ((([0, 1, 2] : List ℤ).length : ℚ) / (cfgStereo.sample_rate : ℚ)) }, true) :=
  pcm_partial_frame_falls_back cfgStereo (.error "sf failed") initPlayer pcmFilePartial
    [0, 1, 2] rfl (by decide) (by decide) (by decide) (by decide) (by decide)

/-- A `min`-fold is bounded by its initial accumulator. -/
theorem foldl_min_le_init (l : List ℚ) (b : ℚ) : l.foldl min b ≤ b := by
  induction l generalizing b with
  | nil => simp
  | cons c t ih => exact le_trans (ih (min b c)) (min_le_left _ _)

/-- A `min`-fold is bounded by every list element. -/
theorem foldl_min_le_mem (l : List ℚ) (b a : ℚ) (h : a ∈ l) : l.foldl min b ≤ a := by
  induction l generalizing b with
  | nil => simp at h
  | cons c t ih =>
    rcases List.mem_cons.1 h with rfl | hm
    · exact le_trans (foldl_min_le_init t (min b a)) (min_le_right _ _)
    · exact ih (min b c) hm

/-- A `max`-fold dominates its initial accumulator. -/
theorem init_le_foldl_max (l : List ℚ) (b : ℚ) : b ≤ l.foldl max b := by
  induction l generalizing b with
  | nil => simp
  | cons c t ih => exact le_trans (le_max_left _ _) (ih (max b c))

/-- A `max`-fold dominates every list element. -/
theorem mem_le_foldl_max (l : List ℚ) (b a : ℚ) (h : a ∈ l) : a ≤ l.foldl max b := by
  induction l generalizing b with
  | nil => simp at h
  | cons c t ih =>
    rcases List.mem_cons.1 h with rfl | hm
    · exact le_trans (le_max_right _ _) (init_le_foldl_max t (max b a))
    · exact ih (max b c) hm

/-- Lemma: `pymin` bounds every element of a non-empty list from below. -/
theorem pymin_le (l : List ℚ) (a : ℚ) (h : a ∈ l) : pymin l ≤ a := by
  cases l with
  | nil => simp at h
  | cons x rest =>
    rcases List.mem_cons.1 h with rfl | hm
    · exact foldl_min_le_init rest a
    · exact foldl_min_le_mem rest x a hm

/-- Lemma: `pymax` bounds every element of a non-empty list from above. -/
theorem le_pymax (l : List ℚ) (a : ℚ) (h : a ∈ l) : a ≤ pymax l := by
  cases l with
  | nil => simp at h
  | cons x rest =>
    rcases List.mem_cons.1 h with rfl | hm
    · exact init_le_foldl_max rest a
    · exact mem_le_foldl_max rest x a hm

/-- On a constant list both folds return the constant. -/
theorem pymin_const (x : ℚ) (rest : List ℚ) (h : ∀ a ∈ rest, a = x) :
    pymin (x :: rest) = x := by
  induction rest with
  | nil => rfl
  | cons c t ih =>
    have hc : c = x := h c (by simp)
    have := ih (fun a ha => h a (by simp [ha]))
    simpa [pymin, hc, min_self] using this

/-- On a constant list the `max`-fold returns the constant. -/
theorem pymax_const (x : ℚ) (rest : List ℚ) (h : ∀ a ∈ rest, a = x) :
    pymax (x :: rest) = x := by
  induction rest with
  | nil => rfl
  | cons c t ih =>
    have hc : c = x := h c (by simp)
    have := ih (fun a ha => h a (by simp [ha]))
    simpa [pymax, hc, max_self] using this

/-- When `max <= min`, the function takes the degenerate branch: every
normalized amplitude is exactly 50 and every size exactly 29. -/
theorem detect_eval_const (p0 : ℚ × ℚ × ℚ) (rest : List (ℚ × ℚ × ℚ))
    (hle : ¬ pymin (ampsOf (p0 :: rest)) < pymax (ampsOf (p0 :: rest))) :
    detect_and_normalize_amplitude_values (p0 :: rest) =
      .ok { amplitudes := List.replicate (p0 :: rest).length 50,
            original_amplitudes := ampsOf (p0 :: rest),
            sizes := List.replicate (p0 :: rest).length 29,
            is_absolute_log_scale := true,
            amplitude_range := (pymin (ampsOf (p0 :: rest)), pymax (ampsOf (p0 :: rest))),
            amplitude_format := ".1f",
            size_multiplier := 42 } := by
  simp only [detect_and_normalize_amplitude_values, ampsOf] at hle ⊢
  rw [if_neg hle]
  simp only [bind, Except.bind, pure, Except.pure, List.map_replicate, List.length_map,
    List.length_cons]
  norm_num

/-- C8: if every amplitude in a non-empty peak list is equal, every
normalized amplitude is exactly 50 and every marker size exactly
`8 + 42 * 0.5 = 29`. -/
theorem detect_all_equal (p0 : ℚ × ℚ × ℚ) (rest : List (ℚ × ℚ × ℚ))
    (h : ∀ p ∈ p0 :: rest, p.2.2 = p0.2.2) :
    ∃ res, detect_and_normalize_amplitude_values (p0 :: rest) = .ok res ∧
      res.amplitudes = List.replicate (p0 :: rest).length 50 ∧
      res.sizes = List.replicate (p0 :: rest).length 29 := by
  have hma : ampsOf (p0 :: rest) = p0.2.2 :: (ampsOf rest) := by simp [ampsOf]
  have hconst : ∀ a ∈ ampsOf rest, a = p0.2.2 := by
    intro a ha
    rcases List.mem_map.1 ha with ⟨p, hp, rfl⟩
    exact h p (by simp [hp])
  have hmin : pymin (ampsOf (p0 :: rest)) = p0.2.2 := by
    rw [hma]; exact pymin_const _ _ hconst
  have hmax : pymax (ampsOf (p0 :: rest)) = p0.2.2 := by
    rw [hma]; exact pymax_const _ _ hconst
  refine ⟨_, detect_eval_const p0 rest (by rw [hmin, hmax]; exact lt_irrefl _), rfl, rfl⟩

/-- Witness for `detect_all_equal`: two peaks with equal amplitude 5. -/
theorem detect_all_equal_witness :
    ∃ res, detect_and_normalize_amplitude_values [(1, 1, 5), (2, 2, 5)] = .ok res ∧
      res.amplitudes = List.replicate ([((1 : ℚ), (1 : ℚ), (5 : ℚ)), (2, 2, 5)] : List (ℚ × ℚ × ℚ)).length 50 ∧
      res.sizes = List.replicate ([((1 : ℚ), (1 : ℚ), (5 : ℚ)), (2, 2, 5)] : List (ℚ × ℚ × ℚ)).length 29 :=
  detect_all_equal (1, 1, 5) [(2, 2, 5)] (by decide)

/-- Lemma: `List.mapM.loop` over `Except` succeeds pointwise. -/
theorem mapM_loop_ok {α β : Type} (f : α → Except String β) (g : α → β) (l : List α) :
    ∀ acc : List β, (∀ a ∈ l, f a = .ok (g a)) →
      List.mapM.loop f l acc = .ok (acc.reverse ++ l.map g) := by
  induction l with
  | nil => intro acc _; simp [List.mapM.loop, pure, Except.pure]
  | cons x xs ih =>
    intro acc h
    have hx : f x = .ok (g x) := h x (by simp)
    have hxs : ∀ a ∈ xs, f a = .ok (g a) := fun a ha => h a (by simp [ha])
    simp [List.mapM.loop, hx, bind, Except.bind, ih (g x :: acc) hxs]

/-- Lemma: `List.mapM` over `Except` succeeds pointwise. -/
theorem mapM_ok {α β : Type} (f : α → Except String β) (g : α → β) (l : List α)
    (h : ∀ a ∈ l, f a = .ok (g a)) : l.mapM f = .ok (l.map g) := by
  simpa using mapM_loop_ok f g l [] h

/-- Lemma: `getD` through a `map`, at an in-bounds index. -/
theorem getD_map (f : ℚ → ℚ) (l : List ℚ) (i : ℕ) (h : i < l.length) (d d' : ℚ) :
    (l.map f).getD i d' = f (l.getD i d) := by
  rw [List.getD_eq_getElem _ d' (by simpa using h), List.getD_eq_getElem _ d h]
  simp

/-- Elements of the linear normalization lie in `[0, 1]`. -/
theorem linOf_bounds (peaks : List (ℚ × ℚ × ℚ))
    (hlt : pymin (ampsOf peaks) < pymax (ampsOf peaks)) :
    ∀ v ∈ linOf peaks, 0 ≤ v ∧ v ≤ 1 := by
  intro v hv
  rcases List.mem_map.1 hv with ⟨a, ha, rfl⟩
  have hd : (0 : ℚ) < pymax (ampsOf peaks) - pymin (ampsOf peaks) := by linarith
  have h1 : pymin (ampsOf peaks) ≤ a := pymin_le _ a ha
  have h2 : a ≤ pymax (ampsOf peaks) := le_pymax _ a ha
  constructor
  · exact div_nonneg (by linarith) (le_of_lt hd)
  · rw [div_le_one hd]; linarith

/-- The median `q2` lies in `[0, 1]` whenever all linear values do. -/
theorem q2Of_bounds (l : List ℚ) (h : ∀ v ∈ l, 0 ≤ v ∧ v ≤ 1) :
    0 ≤ q2Of l ∧ q2Of l ≤ 1 := by
  unfold q2Of
  split
  · rename_i hn
    set s := l.insertionSort (· ≤ ·) with hs
    have hlen : s.length = l.length := List.length_insertionSort _ l
    have hidx : l.length / 2 < s.length := by
      rw [hlen]; exact Nat.div_lt_self (by omega) (by omega)
    have hmem : s.getD (l.length / 2) 0 ∈ s := by
      rw [List.getD_eq_getElem?_getD, List.getElem?_eq_getElem hidx]
      exact List.getElem_mem _
    have : s.getD (l.length / 2) 0 ∈ l :=
      (List.perm_insertionSort (· ≤ ·) l).mem_iff.1 hmem
    exact h _ this
  · norm_num

/-- Lemma: `enhanceVal` carries out its divisions when `q2 ≠ 0` and the value is
at most 1. -/
theorem enhanceVal_ok (q2 v : ℚ) (hq : q2 ≠ 0) (hv1 : v ≤ 1) :
    enhanceVal q2 v = .ok (enhancePure q2 v) := by
  by_cases hle : v ≤ q2
  · simp [enhanceVal, enhancePure, pydiv, hle, hq, Except.map]
  · have h1 : ¬ ((1 : ℚ) - q2 = 0) := by
      intro h0
      have hq1 : q2 = 1 := by linarith
      exact hle (by simpa [hq1] using hv1)
    simp [enhanceVal, enhancePure, pydiv, hle, h1, Except.map]

/-- Bounds of the pure enhancement on `[0, 1]` inputs. -/
theorem enhancePure_bounds (q2 v : ℚ) (hq0 : 0 < q2) (hq1 : q2 ≤ 1)
    (hv0 : 0 ≤ v) (hv1 : v ≤ 1) :
    0 ≤ enhancePure q2 v ∧ enhancePure q2 v ≤ 100 := by
  unfold enhancePure
  split
  · rename_i hle
    have h01 : 0 ≤ v / q2 := div_nonneg hv0 (le_of_lt hq0)
    have h02 : v / q2 ≤ 1 := by rw [div_le_one hq0]; exact hle
    constructor <;> nlinarith
  · rename_i hgt
    push_neg at hgt
    have hq1' : q2 < 1 := lt_of_lt_of_le hgt hv1
    have hd : (0 : ℚ) < 1 - q2 := by linarith
    have h01 : 0 ≤ (v - q2) / (1 - q2) := div_nonneg (by linarith) (le_of_lt hd)
    have h02 : (v - q2) / (1 - q2) ≤ 1 := by rw [div_le_one hd]; linarith
    constructor <;> nlinarith

/-- Monotonicity of the pure enhancement on `[0, 1]`. -/
theorem enhancePure_mono (q2 v w : ℚ) (hq0 : 0 < q2) (hq1 : q2 ≤ 1)
    (hv0 : 0 ≤ v) (hw1 : w ≤ 1) (hvw : v ≤ w) :
    enhancePure q2 v ≤ enhancePure q2 w := by
  unfold enhancePure
  split
  · rename_i hvq
    split
    · rename_i hwq
      have : v / q2 ≤ w / q2 :=
        div_le_div_of_nonneg_right hvw (le_of_lt hq0)
      nlinarith
    · rename_i hwq
      push_neg at hwq
      have h1 : v / q2 ≤ 1 := by rw [div_le_one hq0]; exact hvq
      have h01 : 0 ≤ v / q2 := div_nonneg hv0 (le_of_lt hq0)
      have hq1' : q2 < 1 := lt_of_lt_of_le hwq hw1
      have hd : (0 : ℚ) < 1 - q2 := by linarith
      have h2 : 0 ≤ (w - q2) / (1 - q2) := div_nonneg (by linarith) (le_of_lt hd)
      nlinarith
  · rename_i hvq
    push_neg at hvq
    split
    · rename_i hwq
      exact absurd (le_trans hvw hwq) (not_le.2 hvq)
    · rename_i hwq
      push_neg at hwq
      have hq1' : q2 < 1 := lt_of_lt_of_le hvq (le_trans hvw hw1)
      have hd : (0 : ℚ) < 1 - q2 := by linarith
      have : (v - q2) / (1 - q2) ≤ (w - q2) / (1 - q2) :=
        div_le_div_of_nonneg_right (by linarith) (le_of_lt hd)
      nlinarith

/-- The minimum input (linear value 0) is enhanced to 0. -/
theorem enhancePure_zero (q2 : ℚ) (hq0 : 0 < q2) : enhancePure q2 0 = 0 := by
  unfold enhancePure
  rw [if_pos (le_of_lt hq0)]
  simp

/-- The maximum input (linear value 1) is enhanced to 100 when `q2 < 1`. -/
theorem enhancePure_one (q2 : ℚ) (hq1 : q2 < 1) : enhancePure q2 1 = 100 := by
  unfold enhancePure
  rw [if_neg (by linarith)]
  have hd : (1 : ℚ) - q2 ≠ 0 := by linarith
  field_simp

/-- Evaluation of `detect_and_normalize_amplitude_values` on the
`max > min` branch with a non-degenerate median: the result is the
pointwise enhancement of the linear normalization. -/
theorem detect_eval (p0 : ℚ × ℚ × ℚ) (rest : List (ℚ × ℚ × ℚ))
    (hlt : pymin (ampsOf (p0 :: rest)) < pymax (ampsOf (p0 :: rest)))
    (hq2 : q2Of (linOf (p0 :: rest)) ≠ 0) :
    detect_and_normalize_amplitude_values (p0 :: rest) =
      .ok { amplitudes := (linOf (p0 :: rest)).map (enhancePure (q2Of (linOf (p0 :: rest)))),
            original_amplitudes := ampsOf (p0 :: rest),
            sizes := ((linOf (p0 :: rest)).map (enhancePure (q2Of (linOf (p0 :: rest))))).map
              (fun x => 8 + 42 * (x / 100)),
            is_absolute_log_scale := true,
            amplitude_range := (pymin (ampsOf (p0 :: rest)), pymax (ampsOf (p0 :: rest))),
            amplitude_format := ".1f",
            size_multiplier := 42 } := by
  have hd : pymax (ampsOf (p0 :: rest)) - pymin (ampsOf (p0 :: rest)) ≠ 0 := by
    intro h0; rw [sub_eq_zero] at h0; exact absurd hlt (by rw [h0]; exact lt_irrefl _)
  have h1 : (ampsOf (p0 :: rest)).mapM
      (fun amp => pydiv (amp - pymin (ampsOf (p0 :: rest)))
        (pymax (ampsOf (p0 :: rest)) - pymin (ampsOf (p0 :: rest)))) =
      .ok (linOf (p0 :: rest)) := by
    apply mapM_ok
    intro a _
    unfold pydiv
    rw [if_neg hd]
  have h2 : (linOf (p0 :: rest)).mapM (enhanceVal (q2Of (linOf (p0 :: rest)))) =
      .ok ((linOf (p0 :: rest)).map (enhancePure (q2Of (linOf (p0 :: rest))))) := by
    apply mapM_ok
    intro v hv
    exact enhanceVal_ok _ v hq2 (linOf_bounds _ hlt v hv).2
  have hm : ampsOf (p0 :: rest) = (p0 :: rest).map (fun p => p.2.2) := rfl
  simp only [detect_and_normalize_amplitude_values, ← hm, hlt, if_pos, bind, Except.bind,
    pure, Except.pure, h1, h2]

/-- C2 counterexample: on the non-empty peak list with amplitudes
`0, 0, 0, 1` the median of the linearly normalized values is 0, so the
enhancement divides by zero and the function raises `ZeroDivisionError`
instead of returning normalized amplitudes in `[0, 100]`. -/
theorem detect_and_normalize_counterexample :
    detect_and_normalize_amplitude_values peaksZeroMedian = .error "ZeroDivisionError" := by
  simp [peaksZeroMedian, detect_and_normalize_amplitude_values, enhanceVal, pydiv, pymin,
        pymax, q2Of, List.insertionSort, List.orderedInsert, List.mapM, List.mapM.loop,
        Except.map, Except.pure, Except.bind, bind, pure, Functor.map]

/-- C2 (amended): for every non-empty peak list whose linear-normalized
median `q2` is nonzero (whenever `max > min`; division by a zero median
raises instead), the function succeeds with every normalized amplitude in
`[0, 100]` and every size in `[8, 50]`; when `max > min`, a minimum-
amplitude peak maps to 0, a maximum-amplitude peak maps to 100 provided
the median is also not 1 (when `q2 = 1` the maximum maps to 50 instead),
and the mapping is monotone: a strictly greater raw amplitude never
yields a strictly smaller normalized value. -/
theorem detect_and_normalize_bounds (p0 : ℚ × ℚ × ℚ) (rest : List (ℚ × ℚ × ℚ))
    (hq2 : pymin (ampsOf (p0 :: rest)) < pymax (ampsOf (p0 :: rest)) →
      q2Of (linOf (p0 :: rest)) ≠ 0) :
    ∃ res, detect_and_normalize_amplitude_values (p0 :: rest) = .ok res ∧
      (∀ x ∈ res.amplitudes, 0 ≤ x ∧ x ≤ 100) ∧
      (∀ s ∈ res.sizes, 8 ≤ s ∧ s ≤ 50) ∧
      (pymin (ampsOf (p0 :: rest)) < pymax (ampsOf (p0 :: rest)) →
        (∀ i, i < (p0 :: rest).length →
          (ampsOf (p0 :: rest)).getD i 0 = pymin (ampsOf (p0 :: rest)) →
          res.amplitudes.getD i 0 = 0) ∧
        (q2Of (linOf (p0 :: rest)) ≠ 1 →
          ∀ i, i < (p0 :: rest).length →
            (ampsOf (p0 :: rest)).getD i 0 = pymax (ampsOf (p0 :: rest)) →
            res.amplitudes.getD i 0 = 100) ∧
        (∀ i j, i < (p0 :: rest).length → j < (p0 :: rest).length →
          (ampsOf (p0 :: rest)).getD j 0 < (ampsOf (p0 :: rest)).getD i 0 →
          res.amplitudes.getD j 0 ≤ res.amplitudes.getD i 0)) := by
  by_cases hlt : pymin (ampsOf (p0 :: rest)) < pymax (ampsOf (p0 :: rest))
  · have hq2' := hq2 hlt
    have hb := linOf_bounds (p0 :: rest) hlt
    have hqb := q2Of_bounds _ hb
    have hq0 : 0 < q2Of (linOf (p0 :: rest)) := lt_of_le_of_ne hqb.1 (Ne.symm hq2')
    have hdpos : (0 : ℚ) < pymax (ampsOf (p0 :: rest)) - pymin (ampsOf (p0 :: rest)) := by
      linarith
    have hlenA : (ampsOf (p0 :: rest)).length = (p0 :: rest).length := by
      simp [ampsOf]
    refine ⟨_, detect_eval p0 rest hlt hq2', ?_, ?_, ?_⟩
    · intro x hx
      rcases List.mem_map.1 hx with ⟨v, hv, rfl⟩
      exact enhancePure_bounds _ v hq0 hqb.2 (hb v hv).1 (hb v hv).2
    · intro s hs
      rcases List.mem_map.1 hs with ⟨x, hx, rfl⟩
      rcases List.mem_map.1 hx with ⟨v, hv, rfl⟩
      have hxb := enhancePure_bounds _ v hq0 hqb.2 (hb v hv).1 (hb v hv).2
      constructor
      · nlinarith [hxb.1]
      · nlinarith [hxb.2]
    · intro _
      have hlenL : (linOf (p0 :: rest)).length = (p0 :: rest).length := by
        simp [linOf, hlenA]
      have hgetL : ∀ i, i < (p0 :: rest).length →
          (linOf (p0 :: rest)).getD i 0 =
            ((ampsOf (p0 :: rest)).getD i 0 - pymin (ampsOf (p0 :: rest))) /
              (pymax (ampsOf (p0 :: rest)) - pymin (ampsOf (p0 :: rest))) := by
        intro i hi
        unfold linOf
        exact getD_map _ _ i (by rw [hlenA]; exact hi) 0 0
      have hgetE : ∀ i, i < (p0 :: rest).length →
          ((linOf (p0 :: rest)).map (enhancePure (q2Of (linOf (p0 :: rest))))).getD i 0 =
            enhancePure (q2Of (linOf (p0 :: rest))) ((linOf (p0 :: rest)).getD i 0) := by
        intro i hi
        exact getD_map _ _ i (by rw [hlenL]; exact hi) 0 0
      have hmemL : ∀ i, i < (p0 :: rest).length →
          (linOf (p0 :: rest)).getD i 0 ∈ linOf (p0 :: rest) := by
        intro i hi
        rw [List.getD_eq_getElem _ 0 (by rw [hlenL]; exact hi)]
        exact List.getElem_mem _
      refine ⟨?_, ?_, ?_⟩
      · intro i hi hmin
        rw [hgetE i hi, hgetL i hi, hmin, sub_self, zero_div]
        exact enhancePure_zero _ hq0
      · intro hne1 i hi hmax
        have hq1 : q2Of (linOf (p0 :: rest)) < 1 := lt_of_le_of_ne hqb.2 hne1
        rw [hgetE i hi, hgetL i hi, hmax, div_self (ne_of_gt hdpos)]
        exact enhancePure_one _ hq1
      · intro i j hi hj hji
        rw [hgetE i hi, hgetE j hj, hgetL i hi, hgetL j hj]
        have hle : ((ampsOf (p0 :: rest)).getD j 0 - pymin (ampsOf (p0 :: rest))) /
              (pymax (ampsOf (p0 :: rest)) - pymin (ampsOf (p0 :: rest))) ≤
            ((ampsOf (p0 :: rest)).getD i 0 - pymin (ampsOf (p0 :: rest))) /
              (pymax (ampsOf (p0 :: rest)) - pymin (ampsOf (p0 :: rest))) :=
          div_le_div_of_nonneg_right (by linarith) (le_of_lt hdpos)
        have hbi := hb ((linOf (p0 :: rest)).getD i 0) (hmemL i hi)
        have hbj := hb ((linOf (p0 :: rest)).getD j 0) (hmemL j hj)
        rw [hgetL i hi] at hbi
        rw [hgetL j hj] at hbj
        exact enhancePure_mono _ _ _ hq0 hqb.2 hbj.1 hbi.2 hle
  · refine ⟨_, detect_eval_const p0 rest hlt, ?_, ?_, fun h => absurd h hlt⟩
    · intro x hx
      have := List.eq_of_mem_replicate hx
      subst this
      norm_num
    · intro s hs
      have := List.eq_of_mem_replicate hs
      subst this
      norm_num

/-- Witness for `detect_and_normalize_bounds` at the two-peak list with
amplitudes 0 and 1 (median fallback `q2 = 1/2`). -/
theorem detect_and_normalize_bounds_witness :
    ∃ res, detect_and_normalize_amplitude_values [((0 : ℚ), (0 : ℚ), (0 : ℚ)), (0, 0, 1)] = .ok res ∧
      (∀ x ∈ res.amplitudes, 0 ≤ x ∧ x ≤ 100) ∧
      (∀ s ∈ res.sizes, 8 ≤ s ∧ s ≤ 50) ∧
      (pymin (ampsOf [((0 : ℚ), (0 : ℚ), (0 : ℚ)), (0, 0, 1)]) <
          pymax (ampsOf [((0 : ℚ), (0 : ℚ), (0 : ℚ)), (0, 0, 1)]) →
        (∀ i, i < ([((0 : ℚ), (0 : ℚ), (0 : ℚ)), (0, 0, 1)] : List (ℚ × ℚ × ℚ)).length →
          (ampsOf [((0 : ℚ), (0 : ℚ), (0 : ℚ)), (0, 0, 1)]).getD i 0 =
            pymin (ampsOf [((0 : ℚ), (0 : ℚ), (0 : ℚ)), (0, 0, 1)]) →
          res.amplitudes.getD i 0 = 0) ∧
        (q2Of (linOf [((0 : ℚ), (0 : ℚ), (0 : ℚ)), (0, 0, 1)]) ≠ 1 →
          ∀ i, i < ([((0 : ℚ), (0 : ℚ), (0 : ℚ)), (0, 0, 1)] : List (ℚ × ℚ × ℚ)).length →
            (ampsOf [((0 : ℚ), (0 : ℚ), (0 : ℚ)), (0, 0, 1)]).getD i 0 =
              pymax (ampsOf [((0 : ℚ), (0 : ℚ), (0 : ℚ)), (0, 0, 1)]) →
            res.amplitudes.getD i 0 = 100) ∧
        (∀ i j, i < ([((0 : ℚ), (0 : ℚ), (0 : ℚ)), (0, 0, 1)] : List (ℚ × ℚ × ℚ)).length →
          j < ([((0 : ℚ), (0 : ℚ), (0 : ℚ)), (0, 0, 1)] : List (ℚ × ℚ × ℚ)).length →
          (ampsOf [((0 : ℚ), (0 : ℚ), (0 : ℚ)), (0, 0, 1)]).getD j 0 <
            (ampsOf [((0 : ℚ), (0 : ℚ), (0 : ℚ)), (0, 0, 1)]).getD i 0 →
          res.amplitudes.getD j 0 ≤ res.amplitudes.getD i 0)) :=
  detect_and_normalize_bounds (0, 0, 0) [(0, 0, 1)]
    (fun _ => by norm_num [q2Of, linOf, ampsOf])

/-! ### C9: the filename sanitizer

The proof shows that every output of `clean_filename_for_display` is
canonical — safe characters only, every `\[?\?\]+` match already exactly
`[?]`, whitespace normalized to single interior spaces, non-empty — and
that every pipeline stage is the identity on canonical strings, so a
second application changes nothing. -/

/-- Unfolding: `mergePlaceholders` on a head that starts no match and is
not a skippable `]`. -/
theorem mp_other (b : Bool) (c : Char) (rest : List Char)
    (h1 : ¬ c = ']')
    (h2 : ∀ r, c = '?' → rest = ']' :: r → False)
    (h3 : ∀ r, c = '[' → rest = '?' :: ']' :: r → False) :
    mergePlaceholders b (c :: rest) = c :: mergePlaceholders false rest := by
  rw [mergePlaceholders.eq_def]
  split
  all_goals try (injections; subst_vars)
  all_goals first
    | rfl
    | (exact absurd rfl h1)
    | (exact (h2 _ rfl rfl).elim)
    | (exact (h3 _ rfl rfl).elim)
    | simp_all

/-- Unfolding: `okPlaceholders` on a head that starts no match. -/
theorem ok_other (c : Char) (rest : List Char)
    (h2 : ∀ r, c = '?' → rest = ']' :: r → False)
    (h3 : ∀ r, c = '[' → rest = '?' :: ']' :: r → False) :
    okPlaceholders (c :: rest) = okPlaceholders rest := by
  rw [okPlaceholders.eq_def]
  split
  all_goals try (injections; subst_vars)
  all_goals first
    | rfl
    | (exact (h2 _ rfl rfl).elim)
    | (exact (h3 _ rfl rfl).elim)
    | simp_all

/-- Unfolding: `okPlaceholders` after a well-formed `[?]` not followed by
`]`. -/
theorem ok_bracket (rest : List Char) (h : ∀ r, rest = ']' :: r → False) :
    okPlaceholders ('[' :: '?' :: ']' :: rest) = okPlaceholders rest := by
  rw [okPlaceholders.eq_def]
  split
  all_goals try (injections; subst_vars)
  all_goals first
    | rfl
    | (exact (h _ rfl).elim)
    | simp_all

/-- Every character the filter loop emits is safe. -/
theorem cleanLoop_safe (b : Bool) (l : List Char) :
    ∀ c ∈ cleanLoop b l, is_safe_char c = true := by
  induction b, l using cleanLoop.induct with
  | case1 => intro c hc; simp [cleanLoop] at hc
  | case2 inUnsafe c rest hsafe ih =>
    intro x hx
    rw [cleanLoop, if_pos hsafe] at hx
    rcases List.mem_cons.1 hx with rfl | hm
    · exact hsafe
    · exact ih x hm
  | case3 c rest hsafe ih =>
    intro x hx
    rw [cleanLoop, if_neg hsafe, if_pos rfl] at hx
    exact ih x hx
  | case4 inUnsafe c rest hsafe hskip ih =>
    intro x hx
    rw [cleanLoop, if_neg hsafe, if_neg hskip] at hx
    rcases List.mem_cons.1 hx with rfl | hx
    · decide
    rcases List.mem_cons.1 hx with rfl | hx
    · decide
    rcases List.mem_cons.1 hx with rfl | hx
    · decide
    exact ih x hx

/-- The placeholder merge emits only input characters and `[`, `?`, `]`,
all safe when the input is safe. -/
theorem mergePlaceholders_safe (b : Bool) (l : List Char)
    (h : ∀ c ∈ l, is_safe_char c = true) :
    ∀ c ∈ mergePlaceholders b l, is_safe_char c = true := by
  induction b, l using mergePlaceholders.induct with
  | case1 => intro c hc; simp [mergePlaceholders] at hc
  | case2 rest ih =>
    intro x hx
    rw [show mergePlaceholders true (']' :: rest) = mergePlaceholders true rest from rfl] at hx
    exact ih (fun c hc => h c (by simp [hc])) x hx
  | case3 skip rest hskip ih =>
    intro x hx
    have hne : skip = false := by cases skip <;> simp_all
    subst hne
    rw [show mergePlaceholders false (']' :: rest) = ']' :: mergePlaceholders false rest from rfl] at hx
    rcases List.mem_cons.1 hx with rfl | hx
    · decide
    · exact ih (fun c hc => h c (by simp [hc])) x hx
  | case4 b rest ih =>
    intro x hx
    rw [show mergePlaceholders b ('?' :: ']' :: rest) =
        '[' :: '?' :: ']' :: mergePlaceholders true rest from rfl] at hx
    rcases List.mem_cons.1 hx with rfl | hx
    · decide
    rcases List.mem_cons.1 hx with rfl | hx
    · decide
    rcases List.mem_cons.1 hx with rfl | hx
    · decide
    exact ih (fun c hc => h c (by simp [hc])) x hx
  | case5 b rest ih =>
    intro x hx
    rw [show mergePlaceholders b ('[' :: '?' :: ']' :: rest) =
        '[' :: '?' :: ']' :: mergePlaceholders true rest from rfl] at hx
    rcases List.mem_cons.1 hx with rfl | hx
    · decide
    rcases List.mem_cons.1 hx with rfl | hx
    · decide
    rcases List.mem_cons.1 hx with rfl | hx
    · decide
    exact ih (fun c hc => h c (by simp [hc])) x hx
  | case6 b c rest hne hq hb ih =>
    intro x hx
    rw [mp_other b c rest (by simpa using hne) hq hb] at hx
    rcases List.mem_cons.1 hx with rfl | hx
    · exact h x (by simp)
    · exact ih (fun d hd => h d (by simp [hd])) x hx

/-- The whitespace merge emits only input characters and spaces. -/
theorem mergeSpaces_safe (b : Bool) (l : List Char)
    (h : ∀ c ∈ l, is_safe_char c = true) :
    ∀ c ∈ mergeSpaces b l, is_safe_char c = true := by
  induction b, l using mergeSpaces.induct with
  | case1 => intro c hc; simp [mergeSpaces] at hc
  | case2 c rest hws ih =>
    intro x hx
    rw [mergeSpaces, if_pos hws, if_pos rfl] at hx
    exact ih (fun d hd => h d (by simp [hd])) x hx
  | case3 b c rest hws hb ih =>
    intro x hx
    rw [mergeSpaces, if_pos hws, if_neg hb] at hx
    rcases List.mem_cons.1 hx with rfl | hx
    · decide
    · exact ih (fun d hd => h d (by simp [hd])) x hx
  | case4 b c rest hws ih =>
    intro x hx
    rw [mergeSpaces, if_neg hws] at hx
    rcases List.mem_cons.1 hx with rfl | hx
    · exact h x (by simp)
    · exact ih (fun d hd => h d (by simp [hd])) x hx

/-- Lemma: `dropTrailingWs` keeps a subset of the characters. -/
theorem dropTrailingWs_mem (l : List Char) (c : Char) (h : c ∈ dropTrailingWs l) :
    c ∈ l := by
  induction l with
  | nil => simpa [dropTrailingWs] using h
  | cons d rest ih =>
    rw [dropTrailingWs] at h
    split at h
    · simp at h
    · rcases List.mem_cons.1 h with rfl | hm
      · simp
      · simp [ih hm]

/-- Lemma: `pystrip` keeps a subset of the characters. -/
theorem pystrip_mem (l : List Char) (c : Char) (h : c ∈ pystrip l) : c ∈ l :=
  (List.dropWhile_sublist pyIsSpace (l := l)).subset (dropTrailingWs_mem _ c h)

/-- A prefix's characters all occur in the string. -/
theorem isPrefixOf_subset (k l : List Char) (h : k.isPrefixOf l = true) :
    ∀ x ∈ k, x ∈ l := by
  induction k generalizing l with
  | nil => intro x hx; simp at hx
  | cons a k ih =>
    cases l with
    | nil => simp [List.isPrefixOf] at h
    | cons b l =>
      simp only [List.isPrefixOf, Bool.and_eq_true, beq_iff_eq] at h
      intro x hx
      rcases List.mem_cons.1 hx with rfl | hm
      · simp [h.1]
      · exact List.mem_cons_of_mem _ (ih l h.2 x hm)

/-- Lemma: `str.replace` is the identity when the key contains an unsafe
character but the string is all safe. -/
theorem pyReplace_id_of_unsafe_key (s key repl : List Char)
    (hk : ∃ u ∈ key, is_safe_char u = false)
    (hs : ∀ c ∈ s, is_safe_char c = true) :
    pyReplace s key repl = s := by
  unfold pyReplace
  induction s with
  | nil => rfl
  | cons c rest ih =>
    have hnp : ¬ (key ≠ [] && key.isPrefixOf (c :: rest)) = true := by
      intro hp
      rw [Bool.and_eq_true] at hp
      obtain ⟨-, hpre⟩ := hp
      rcases hk with ⟨u, hu, hunsafe⟩
      have := hs u (isPrefixOf_subset key (c :: rest) hpre u hu)
      rw [this] at hunsafe
      cases hunsafe
    rw [pyReplaceGo, if_neg hnp, ih (fun d hd => hs d (by simp [hd]))]

/-- Each emoji key contains an unsafe character. -/
theorem emoji_keys_unsafe :
    ∀ p ∈ emoji_replacements, ∃ u ∈ p.1, is_safe_char u = false := by
  decide

/-- The emoji-replacement pass is the identity on all-safe strings. -/
theorem applyEmoji_id (s : List Char) (hs : ∀ c ∈ s, is_safe_char c = true) :
    applyEmoji s = s := by
  unfold applyEmoji
  have : ∀ ps : List (List Char × List Char),
      (∀ p ∈ ps, ∃ u ∈ p.1, is_safe_char u = false) →
      ps.foldl (fun acc p => pyReplace acc p.1 p.2) s = s := by
    intro ps
    induction ps with
    | nil => intro _; rfl
    | cons p rest ih =>
      intro hp
      have h1 : pyReplace s p.1 p.2 = s :=
        pyReplace_id_of_unsafe_key s p.1 p.2 (hp p (by simp)) hs
      simp only [List.foldl_cons, h1]
      exact ih (fun q hq => hp q (by simp [hq]))
  exact this _ emoji_keys_unsafe

/-- The filter loop is the identity on all-safe strings. -/
theorem cleanLoop_id (b : Bool) (l : List Char)
    (h : ∀ c ∈ l, is_safe_char c = true) :
    cleanLoop b l = l := by
  induction l generalizing b with
  | nil => rfl
  | cons c rest ih =>
    rw [cleanLoop, if_pos (h c (by simp)), ih false (fun d hd => h d (by simp [hd]))]

/-- The skip flag is irrelevant when the string does not start with `]`. -/
theorem mp_flag_eq (l : List Char) (h : ∀ r, l = ']' :: r → False) :
    mergePlaceholders true l = mergePlaceholders false l := by
  cases l with
  | nil => rfl
  | cons c r =>
    by_cases hq : c = '?' ∧ ∃ r2, r = ']' :: r2
    · obtain ⟨rfl, r2, rfl⟩ := hq
      rfl
    by_cases hb : c = '[' ∧ ∃ r2, r = '?' :: ']' :: r2
    · obtain ⟨rfl, r2, rfl⟩ := hb
      rfl
    have hrb : ¬ c = ']' := fun hc => h r (by rw [hc])
    have h2 : ∀ r2, c = '?' → r = ']' :: r2 → False :=
      fun r2 hc hr => hq ⟨hc, r2, hr⟩
    have h3 : ∀ r2, c = '[' → r = '?' :: ']' :: r2 → False :=
      fun r2 hc hr => hb ⟨hc, r2, hr⟩
    rw [mp_other true c r hrb h2 h3, mp_other false c r hrb h2 h3]

/-- In skip mode the output never starts with `]` (stated over both flag
values to drive the functional induction). -/
theorem mp_ne_rb_aux (b : Bool) (l : List Char) :
    b = true → ∀ x, mergePlaceholders true l = ']' :: x → False := by
  induction b, l using mergePlaceholders.induct with
  | case1 => intro _ x hx; cases hx
  | case2 rest ih => intro _ x hx; exact ih rfl x hx
  | case3 skip rest hskip ih => intro hb; exact absurd hb hskip
  | case4 b rest ih =>
    intro _ x hx
    injection hx with h1 _
    exact absurd h1 (by decide)
  | case5 b rest ih =>
    intro _ x hx
    injection hx with h1 _
    exact absurd h1 (by decide)
  | case6 b c rest hc hq hb ih =>
    intro _ x hx
    rw [mp_other true c rest hc hq hb] at hx
    injection hx with h1 _
    exact hc h1

/-- In skip mode the output never starts with `]`. -/
theorem mp_true_ne_rb (l : List Char) :
    ∀ x, mergePlaceholders true l = ']' :: x → False :=
  mp_ne_rb_aux true l rfl

/-- If the non-skip output starts with `]`, so did the input. -/
theorem mp_false_rb_inv (l : List Char) (x : List Char)
    (h : mergePlaceholders false l = ']' :: x) : ∃ r, l = ']' :: r := by
  cases l with
  | nil => cases h
  | cons c r =>
    by_cases hq : c = '?' ∧ ∃ r2, r = ']' :: r2
    · obtain ⟨rfl, r2, rfl⟩ := hq
      injection h with h1 _
      exact absurd h1 (by decide)
    by_cases hb : c = '[' ∧ ∃ r2, r = '?' :: ']' :: r2
    · obtain ⟨rfl, r2, rfl⟩ := hb
      injection h with h1 _
      exact absurd h1 (by decide)
    by_cases hrb : c = ']'
    · exact ⟨r, by rw [hrb]⟩
    · rw [mp_other false c r hrb (fun r2 hc hr => hq ⟨hc, r2, hr⟩)
        (fun r2 hc hr => hb ⟨hc, r2, hr⟩)] at h
      injection h with h1 _
      exact absurd h1 hrb

/-- If the non-skip output starts with `?`, the input did, with no `]`
right after it, and the output continues with the non-skip merge of the
input's tail. -/
theorem mp_false_q_inv (l : List Char) (x : List Char)
    (h : mergePlaceholders false l = '?' :: x) :
    ∃ r, l = '?' :: r ∧ (∀ r2, r = ']' :: r2 → False) ∧
      x = mergePlaceholders false r := by
  cases l with
  | nil => cases h
  | cons c r =>
    by_cases hq : c = '?' ∧ ∃ r2, r = ']' :: r2
    · obtain ⟨rfl, r2, rfl⟩ := hq
      injection h with h1 _
      exact absurd h1 (by decide)
    by_cases hb : c = '[' ∧ ∃ r2, r = '?' :: ']' :: r2
    · obtain ⟨rfl, r2, rfl⟩ := hb
      injection h with h1 _
      exact absurd h1 (by decide)
    by_cases hrb : c = ']'
    · subst hrb
      rw [show mergePlaceholders false (']' :: r) = ']' :: mergePlaceholders false r from rfl] at h
      injection h with h1 _
      exact absurd h1 (by decide)
    · rw [mp_other false c r hrb (fun r2 hc hr => hq ⟨hc, r2, hr⟩)
        (fun r2 hc hr => hb ⟨hc, r2, hr⟩)] at h
      injection h with h1 h2
      subst h1
      exact ⟨r, rfl, fun r2 hr => hq ⟨rfl, r2, hr⟩, h2.symm⟩

/-- Main invariant: every output of the placeholder merge satisfies
`okPlaceholders` — each remaining match of `\[?\?\]+` is exactly `[?]`. -/
theorem okPlaceholders_merge (b : Bool) (l : List Char) :
    okPlaceholders (mergePlaceholders b l) = true := by
  induction b, l using mergePlaceholders.induct with
  | case1 => rfl
  | case2 rest ih => exact ih
  | case3 skip rest hskip ih =>
    have hne : skip = false := by cases skip <;> simp_all
    subst hne
    rw [show mergePlaceholders false (']' :: rest) = ']' :: mergePlaceholders false rest from rfl,
      ok_other ']' _ (fun r hc => absurd hc (by decide)) (fun r hc => absurd hc (by decide))]
    exact ih
  | case4 b rest ih =>
    rw [show mergePlaceholders b ('?' :: ']' :: rest) =
        '[' :: '?' :: ']' :: mergePlaceholders true rest from rfl,
      ok_bracket _ (fun r hr => mp_true_ne_rb rest r hr)]
    exact ih
  | case5 b rest ih =>
    rw [show mergePlaceholders b ('[' :: '?' :: ']' :: rest) =
        '[' :: '?' :: ']' :: mergePlaceholders true rest from rfl,
      ok_bracket _ (fun r hr => mp_true_ne_rb rest r hr)]
    exact ih
  | case6 b c rest hc hq hb ih =>
    rw [mp_other b c rest hc hq hb]
    rw [ok_other c _ ?h2 ?h3]
    · exact ih
    case h2 =>
      intro r hcq hr
      rcases mp_false_rb_inv rest r hr with ⟨r2, hr2⟩
      exact hq r2 hcq hr2
    case h3 =>
      intro r hcb hr
      rcases mp_false_q_inv rest (']' :: r) hr with ⟨r2, hr2, hnr, hx⟩
      rcases mp_false_rb_inv r2 r hx.symm with ⟨r3, hr3⟩
      exact hnr r3 hr3

/-- The placeholder merge is the identity on `okPlaceholders` strings. -/
theorem mergePlaceholders_id (l : List Char) (h : okPlaceholders l = true) :
    mergePlaceholders false l = l := by
  induction l using okPlaceholders.induct with
  | case1 => rfl
  | case2 x =>
    rw [show okPlaceholders ('[' :: '?' :: ']' :: ']' :: x) = false from rfl] at h
    cases h
  | case3 rest hrest ih =>
    rw [ok_bracket rest hrest] at h
    rw [show mergePlaceholders false ('[' :: '?' :: ']' :: rest) =
        '[' :: '?' :: ']' :: mergePlaceholders true rest from rfl,
      mp_flag_eq rest hrest, ih h]
  | case4 x =>
    rw [show okPlaceholders ('?' :: ']' :: x) = false from rfl] at h
    cases h
  | case5 c rest hbb hbq hq ih =>
    have h2 : ∀ r, c = '?' → rest = ']' :: r → False := fun r hc hr => hq r hc hr
    have h3 : ∀ r, c = '[' → rest = '?' :: ']' :: r → False := fun r hc hr => hbq r hc hr
    rw [ok_other c rest h2 h3] at h
    by_cases hrb : c = ']'
    · subst hrb
      rw [show mergePlaceholders false (']' :: rest) = ']' :: mergePlaceholders false rest from rfl,
        ih h]
    · rw [mp_other false c rest hrb h2 h3, ih h]

/-- If the whitespace merge (non-run mode) outputs a leading `]`, the
input led with it. -/
theorem ms_rb_inv (l : List Char) (x : List Char)
    (h : mergeSpaces false l = ']' :: x) : ∃ r, l = ']' :: r := by
  cases l with
  | nil => cases h
  | cons c r =>
    by_cases hws : pyIsSpace c = true
    · rw [mergeSpaces, if_pos hws, if_neg (by simp)] at h
      injection h with h1 _
      exact absurd h1.symm (by decide)
    · rw [mergeSpaces, if_neg hws] at h
      injection h with h1 _
      exact ⟨r, by rw [h1]⟩

/-- If the whitespace merge (non-run mode) outputs a leading `?`, the
input led with it and the output continues with the merge of the tail. -/
theorem ms_q_inv (l : List Char) (x : List Char)
    (h : mergeSpaces false l = '?' :: x) :
    ∃ r, l = '?' :: r ∧ x = mergeSpaces false r := by
  cases l with
  | nil => cases h
  | cons c r =>
    by_cases hws : pyIsSpace c = true
    · rw [mergeSpaces, if_pos hws, if_neg (by simp)] at h
      injection h with h1 _
      exact absurd h1.symm (by decide)
    · rw [mergeSpaces, if_neg hws] at h
      injection h with h1 h2
      subst h1
      exact ⟨r, rfl, h2.symm⟩

/-- The placeholder invariant survives whitespace merging. -/
theorem ok_mergeSpaces (l : List Char) (h : okPlaceholders l = true) :
    ∀ b, okPlaceholders (mergeSpaces b l) = true := by
  induction l using okPlaceholders.induct with
  | case1 => intro b; cases b <;> rfl
  | case2 x =>
    rw [show okPlaceholders ('[' :: '?' :: ']' :: ']' :: x) = false from rfl] at h
    cases h
  | case3 rest hrest ih =>
    intro b
    rw [ok_bracket rest hrest] at h
    have hstep : mergeSpaces b ('[' :: '?' :: ']' :: rest) =
        '[' :: '?' :: ']' :: mergeSpaces false rest := by
      rw [mergeSpaces, if_neg (by decide), mergeSpaces, if_neg (by decide),
        mergeSpaces, if_neg (by decide)]
    rw [hstep, ok_bracket _ (fun r hr => by
      rcases ms_rb_inv rest r hr with ⟨r2, hr2⟩
      exact hrest r2 hr2)]
    exact ih h false
  | case4 x =>
    rw [show okPlaceholders ('?' :: ']' :: x) = false from rfl] at h
    cases h
  | case5 c rest hbb hbq hq ih =>
    intro b
    rw [ok_other c rest (fun r hc hr => hq r hc hr) (fun r hc hr => hbq r hc hr)] at h
    by_cases hws : pyIsSpace c = true
    · by_cases hb : b = true
      · subst hb
        rw [mergeSpaces, if_pos hws, if_pos rfl]
        exact ih h true
      · have hb' : b = false := by cases b <;> simp_all
        subst hb'
        rw [mergeSpaces, if_pos hws, if_neg hb]
        rw [ok_other ' ' _ (fun r hc => absurd hc (by decide))
          (fun r hc => absurd hc (by decide))]
        exact ih h true
    · rw [mergeSpaces, if_neg hws]
      rw [ok_other c _ ?g2 ?g3]
      · exact ih h false
      case g2 =>
        intro r hc hr
        rcases ms_rb_inv rest r hr with ⟨r2, hr2⟩
        exact hq r2 hc hr2
      case g3 =>
        intro r hc hr
        rcases ms_q_inv rest (']' :: r) hr with ⟨r2, hr2, hx⟩
        rcases ms_rb_inv r2 r hx.symm with ⟨r3, hr3⟩
        exact hbq r3 hc (by rw [hr2, hr3])

/-- Lemma: `dropTrailingWs` output is a cons only when the input led with the
same character, the rest of the output being the trailing strip of the
tail. -/
theorem dtw_cons_inv (l : List Char) (c : Char) (x : List Char)
    (h : dropTrailingWs l = c :: x) :
    ∃ r, l = c :: r ∧ x = dropTrailingWs r := by
  cases l with
  | nil => cases h
  | cons d r =>
    rw [dropTrailingWs] at h
    split at h
    · cases h
    · injection h with h1 h2
      subst h1
      exact ⟨r, rfl, h2.symm⟩

/-- Whitespace characters start no placeholder pattern. -/
theorem ws_not_pattern (c : Char) (hws : pyIsSpace c = true) :
    (∀ r : List Char, c = '?' → r = r → False) ∧ (∀ r : List Char, c = '[' → r = r → False) := by
  constructor
  · intro r hc _; rw [hc] at hws; exact absurd hws (by decide)
  · intro r hc _; rw [hc] at hws; exact absurd hws (by decide)

/-- The placeholder invariant survives dropping leading whitespace. -/
theorem ok_dropWhile_ws (l : List Char) (h : okPlaceholders l = true) :
    okPlaceholders (l.dropWhile pyIsSpace) = true := by
  induction l with
  | nil => exact h
  | cons c rest ih =>
    by_cases hws : pyIsSpace c = true
    · rw [List.dropWhile_cons, if_pos hws]
      rw [ok_other c rest (fun r hc _ => ((ws_not_pattern c hws).1 r hc rfl))
        (fun r hc _ => ((ws_not_pattern c hws).2 r hc rfl))] at h
      exact ih h
    · rw [List.dropWhile_cons, if_neg hws]
      exact h

/-- The placeholder invariant survives dropping trailing whitespace. -/
theorem ok_dropTrailingWs (l : List Char) (h : okPlaceholders l = true) :
    okPlaceholders (dropTrailingWs l) = true := by
  induction l using okPlaceholders.induct with
  | case1 => exact h
  | case2 x =>
    rw [show okPlaceholders ('[' :: '?' :: ']' :: ']' :: x) = false from rfl] at h
    cases h
  | case3 rest hrest ih =>
    rw [ok_bracket rest hrest] at h
    have h3 : dropTrailingWs ('[' :: '?' :: ']' :: rest) =
        '[' :: '?' :: ']' :: dropTrailingWs rest := by
      rw [dropTrailingWs, dropTrailingWs, dropTrailingWs]
      simp [pyIsSpace]
    rw [h3, ok_bracket _ (fun r hr => by
      rcases dtw_cons_inv rest ']' r hr with ⟨r2, hr2, -⟩
      exact hrest r2 hr2)]
    exact ih h
  | case4 x =>
    rw [show okPlaceholders ('?' :: ']' :: x) = false from rfl] at h
    cases h
  | case5 c rest hbb hbq hq ih =>
    rw [ok_other c rest (fun r hc hr => hq r hc hr) (fun r hc hr => hbq r hc hr)] at h
    rw [dropTrailingWs]
    split
    · rfl
    · rw [ok_other c _ ?g2 ?g3]
      · exact ih h
      case g2 =>
        intro r hc hr
        rcases dtw_cons_inv rest ']' r hr with ⟨r2, hr2, -⟩
        exact hq r2 hc hr2
      case g3 =>
        intro r hc hr
        rcases dtw_cons_inv rest '?' (']' :: r) hr with ⟨r2, hr2, hx⟩
        rcases dtw_cons_inv r2 ']' r hx.symm with ⟨r3, hr3, -⟩
        exact hbq r3 hc (by rw [hr2, hr3])

/-- In run mode the whitespace merge never outputs a leading space
(stated over both flags for the functional induction). -/
theorem ms_head_aux (b : Bool) (l : List Char) :
    b = true → ∀ c x, mergeSpaces true l = c :: x → pyIsSpace c = false := by
  induction b, l using mergeSpaces.induct with
  | case1 => intro _ c x hx; cases hx
  | case2 d rest hws ih =>
    intro _ c x hx
    rw [mergeSpaces, if_pos hws, if_pos rfl] at hx
    exact ih rfl c x hx
  | case3 b d rest hws hb ih => intro hbt; exact absurd hbt hb
  | case4 b d rest hws ih =>
    intro _ c x hx
    rw [mergeSpaces, if_neg hws] at hx
    injection hx with h1 _
    rw [← h1]
    exact Bool.not_eq_true _ ▸ (by simpa using hws)

/-- In run mode the whitespace merge never outputs a leading space. -/
theorem ms_true_head (l : List Char) (c : Char) (x : List Char)
    (h : mergeSpaces true l = c :: x) : pyIsSpace c = false :=
  ms_head_aux true l rfl c x h

/-- Every output of the whitespace merge has single, interior-only space
runs. -/
theorem singleSpaces_merge (b : Bool) (l : List Char) :
    singleSpaces (mergeSpaces b l) = true := by
  induction b, l using mergeSpaces.induct with
  | case1 => rfl
  | case2 d rest hws ih =>
    rw [mergeSpaces, if_pos hws, if_pos rfl]
    exact ih
  | case3 b d rest hws hb ih =>
    rw [mergeSpaces, if_pos hws, if_neg hb]
    cases hm : mergeSpaces true rest with
    | nil => rfl
    | cons e y =>
      have he : pyIsSpace e = false := ms_true_head rest e y hm
      rw [hm] at ih
      rw [singleSpaces]
      simp [he, ih]
  | case4 b d rest hws ih =>
    rw [mergeSpaces, if_neg hws]
    cases hm : mergeSpaces false rest with
    | nil => simp [singleSpaces, hws]
    | cons e y =>
      rw [hm] at ih
      rw [singleSpaces]
      simp [hws, ih]

/-- Lemma: `singleSpaces` survives dropping leading whitespace. -/
theorem ss_dropWhile_ws (l : List Char) (h : singleSpaces l = true) :
    singleSpaces (l.dropWhile pyIsSpace) = true := by
  induction l with
  | nil => exact h
  | cons c rest ih =>
    by_cases hws : pyIsSpace c = true
    · rw [List.dropWhile_cons, if_pos hws]
      apply ih
      cases rest with
      | nil => rfl
      | cons d r =>
        rw [singleSpaces] at h
        simp only [Bool.and_eq_true] at h
        exact h.2
    · rw [List.dropWhile_cons, if_neg hws]
      exact h

/-- Lemma: `singleSpaces` survives dropping trailing whitespace. -/
theorem ss_dropTrailingWs (l : List Char) (h : singleSpaces l = true) :
    singleSpaces (dropTrailingWs l) = true := by
  induction l with
  | nil => exact h
  | cons c rest ih =>
    rw [dropTrailingWs]
    split
    · rfl
    · rename_i hguard
      have hssrest : singleSpaces rest = true := by
        cases rest with
        | nil => rfl
        | cons d r =>
          rw [singleSpaces] at h
          simp only [Bool.and_eq_true] at h
          exact h.2
      have ihr := ih hssrest
      cases hm : dropTrailingWs rest with
      | nil =>
        have hcw : pyIsSpace c = false := by
          cases hp : pyIsSpace c
          · rfl
          · exact absurd (by simp [hm, hp]) hguard
        simp [singleSpaces, hcw]
      | cons e y =>
        rw [hm] at ihr
        rcases dtw_cons_inv rest e y hm with ⟨r2, hr2, -⟩
        rw [singleSpaces]
        simp only [Bool.and_eq_true]
        refine ⟨?_, ihr⟩
        subst hr2
        rw [singleSpaces] at h
        simp only [Bool.and_eq_true] at h
        exact h.1

/-- The whitespace merge is the identity on `singleSpaces` strings (in
run mode additionally requiring a non-space head). -/
theorem mergeSpaces_id (l : List Char) (h : singleSpaces l = true) :
    mergeSpaces false l = l ∧
      ((∀ c x, l = c :: x → pyIsSpace c = false) → mergeSpaces true l = l) := by
  induction l with
  | nil => exact ⟨rfl, fun _ => rfl⟩
  | cons c rest ih =>
    by_cases hws : pyIsSpace c = true
    · have hc : c = ' ' ∧ (∀ d x, rest = d :: x → pyIsSpace d = false) ∧
          singleSpaces rest = true := by
        cases rest with
        | nil =>
          rw [singleSpaces] at h
          simp only [hws, Bool.not_true, Bool.false_or, beq_iff_eq] at h
          exact ⟨h, fun d x hx => absurd hx (by simp), rfl⟩
        | cons d r =>
          rw [singleSpaces] at h
          simp only [hws, Bool.not_true, Bool.false_or, Bool.and_eq_true, beq_iff_eq] at h
          refine ⟨h.1.1, fun e x hx => ?_, h.2⟩
          injection hx with h1 _
          subst h1
          simpa using h.1.2
      constructor
      · rw [mergeSpaces, if_pos hws, if_neg (by simp)]
        rw [(ih hc.2.2).2 hc.2.1, hc.1]
      · intro hhead
        exact absurd (hhead c rest rfl) (by simp [hws])
    · have hss : singleSpaces rest = true := by
        cases rest with
        | nil => rfl
        | cons d r =>
          rw [singleSpaces] at h
          simp only [Bool.and_eq_true] at h
          exact h.2
      constructor
      · rw [mergeSpaces, if_neg hws, (ih hss).1]
      · intro _
        rw [mergeSpaces, if_neg hws, (ih hss).1]

/-- Lemma: `dropWhile` is the identity when the head fails the predicate. -/
theorem dropWhile_ws_id (l : List Char)
    (h : ∀ c x, l = c :: x → pyIsSpace c = false) :
    l.dropWhile pyIsSpace = l := by
  cases l with
  | nil => rfl
  | cons c rest => rw [List.dropWhile_cons, if_neg (by simp [h c rest rfl])]

/-- Lemma: `dropTrailingWs` is the identity when the last character is not
whitespace. -/
theorem dropTrailingWs_id (l : List Char)
    (h : ∀ c, l.getLast? = some c → pyIsSpace c = false) :
    dropTrailingWs l = l := by
  induction l with
  | nil => rfl
  | cons c rest ih =>
    cases rest with
    | nil =>
      have hc := h c rfl
      rw [dropTrailingWs]
      simp [dropTrailingWs, hc]
    | cons d r =>
      have hr : dropTrailingWs (d :: r) = d :: r := by
        apply ih
        intro e he
        exact h e (by rw [List.getLast?_cons_cons]; exact he)
      rw [dropTrailingWs, hr]
      simp

/-- The head of a `dropWhile pyIsSpace` output is not whitespace. -/
theorem dropWhile_ws_head (l : List Char) (c : Char) (x : List Char)
    (h : l.dropWhile pyIsSpace = c :: x) : pyIsSpace c = false := by
  induction l with
  | nil => cases h
  | cons d rest ih =>
    rw [List.dropWhile_cons] at h
    split at h
    · exact ih h
    · rename_i hd
      injection h with h1 _
      subst h1
      simpa using hd

/-- The last character of a `dropTrailingWs` output is not whitespace. -/
theorem dtw_last (l : List Char) (c : Char)
    (h : (dropTrailingWs l).getLast? = some c) : pyIsSpace c = false := by
  induction l with
  | nil => cases h
  | cons d rest ih =>
    rw [dropTrailingWs] at h
    split at h
    · cases h
    · rename_i hguard
      cases hm : dropTrailingWs rest with
      | nil =>
        rw [hm, List.getLast?_singleton] at h
        injection h with h1
        subst h1
        cases hp : pyIsSpace d
        · rfl
        · exact absurd (show (decide (dropTrailingWs rest = []) && pyIsSpace d) = true by
            simp [hm, hp]) hguard
      | cons e y =>
        rw [hm, List.getLast?_cons_cons] at h
        rw [hm] at ih
        exact ih h

/-- The head of a stripped string is not whitespace. -/
theorem pystrip_head (l : List Char) (c : Char) (x : List Char)
    (h : pystrip l = c :: x) : pyIsSpace c = false := by
  rcases dtw_cons_inv _ c x h with ⟨r, hr, -⟩
  exact dropWhile_ws_head l c r hr

/-- The last character of a stripped string is not whitespace. -/
theorem pystrip_last (l : List Char) (c : Char)
    (h : (pystrip l).getLast? = some c) : pyIsSpace c = false :=
  dtw_last _ c h

/-- Lemma: `pystrip` is the identity on strings with no edge whitespace. -/
theorem pystrip_id (l : List Char)
    (hh : ∀ c x, l = c :: x → pyIsSpace c = false)
    (hl : ∀ c, l.getLast? = some c → pyIsSpace c = false) :
    pystrip l = l := by
  unfold pystrip
  rw [dropWhile_ws_id l hh, dropTrailingWs_id l hl]

/-- A canonical string is a fixed point of the sanitizer. -/
theorem clean_filename_fixed (t : List Char)
    (hne : ¬ t = [])
    (hsafe : ∀ c ∈ t, is_safe_char c = true)
    (hok : okPlaceholders t = true)
    (hss : singleSpaces t = true)
    (hh : ∀ c x, t = c :: x → pyIsSpace c = false)
    (hl : ∀ c, t.getLast? = some c → pyIsSpace c = false)
    (hchk : ¬ pystrip (pyReplace t placeholder []) = []) :
    clean_filename_for_display t = t := by
  unfold clean_filename_for_display
  rw [if_neg hne]
  simp only [applyEmoji_id t hsafe]
  rw [cleanLoop_id false t hsafe, mergePlaceholders_id t hok,
    (mergeSpaces_id t hss).1, pystrip_id t hh hl, if_neg (by simp [hne, hchk])]

/-- The fallback name `audio_file` is canonical. -/
theorem audio_file_canonical :
    ¬ ("audio_file".data : List Char) = [] ∧
      (∀ c ∈ ("audio_file".data : List Char), is_safe_char c = true) ∧
      okPlaceholders "audio_file".data = true ∧
      singleSpaces "audio_file".data = true ∧
      (∀ c x, ("audio_file".data : List Char) = c :: x → pyIsSpace c = false) ∧
      (∀ c, ("audio_file".data : List Char).getLast? = some c → pyIsSpace c = false) ∧
      ¬ pystrip (pyReplace "audio_file".data placeholder []) = [] := by
  refine ⟨by decide, by decide, by decide, by decide, ?_, ?_, by decide⟩
  · intro c x hx
    rw [show ("audio_file".data : List Char) =
      ['a', 'u', 'd', 'i', 'o', '_', 'f', 'i', 'l', 'e'] from rfl] at hx
    injection hx with h1 _
    subst h1
    decide
  · intro c hc
    rw [show ("audio_file".data : List Char) =
      ['a', 'u', 'd', 'i', 'o', '_', 'f', 'i', 'l', 'e'] from rfl] at hc
    simp only [List.getLast?_cons_cons, List.getLast?_singleton] at hc
    injection hc with h1
    subst h1
    decide

/-- Every sanitizer output on a non-empty input is canonical. -/
theorem clean_filename_canonical (s t : List Char) (hs : ¬ s = [])
    (ht : clean_filename_for_display s = t) :
    ¬ t = [] ∧ (∀ c ∈ t, is_safe_char c = true) ∧ okPlaceholders t = true ∧
      singleSpaces t = true ∧ (∀ c x, t = c :: x → pyIsSpace c = false) ∧
      (∀ c, t.getLast? = some c → pyIsSpace c = false) ∧
      ¬ pystrip (pyReplace t placeholder []) = [] := by
  unfold clean_filename_for_display at ht
  rw [if_neg hs] at ht
  set s2 := cleanLoop false (applyEmoji s) with hs2
  set s3 := mergePlaceholders false s2 with hs3
  set s4 := mergeSpaces false s3 with hs4
  set r := pystrip s4 with hr
  have hsafe2 : ∀ c ∈ s2, is_safe_char c = true := cleanLoop_safe false (applyEmoji s)
  have hsafe3 : ∀ c ∈ s3, is_safe_char c = true := mergePlaceholders_safe false s2 hsafe2
  have hsafe4 : ∀ c ∈ s4, is_safe_char c = true := mergeSpaces_safe false s3 hsafe3
  have hsafer : ∀ c ∈ r, is_safe_char c = true := fun c hc => hsafe4 c (pystrip_mem s4 c hc)
  have hok4 : okPlaceholders s4 = true :=
    ok_mergeSpaces s3 (okPlaceholders_merge false s2) false
  have hokr : okPlaceholders r = true :=
    ok_dropTrailingWs _ (ok_dropWhile_ws s4 hok4)
  have hssr : singleSpaces r = true :=
    ss_dropTrailingWs _ (ss_dropWhile_ws s4 (singleSpaces_merge false s3))
  have hhr : ∀ c x, r = c :: x → pyIsSpace c = false := fun c x hx => pystrip_head s4 c x hx
  have hlr : ∀ c, r.getLast? = some c → pyIsSpace c = false := fun c hc => pystrip_last s4 c hc
  by_cases hcond : (r = [] || pystrip (pyReplace r placeholder []) = []) = true
  · rw [if_pos hcond] at ht
    subst ht
    exact audio_file_canonical
  · rw [if_neg hcond] at ht
    subst ht
    simp only [Bool.or_eq_true, decide_eq_true_eq, not_or] at hcond
    exact ⟨fun h => hcond.1 (by simpa using h), hsafer, hokr, hssr, hhr, hlr,
      fun h => hcond.2 (by simpa using h)⟩

/-- C9: the filename sanitizer is idempotent — applying it twice gives
the same string as applying it once — and every output character is in
the declared safe set (the characters of the `[?]` placeholder are
themselves safe ASCII). -/
theorem clean_filename_idempotent_and_safe (s : List Char) :
    clean_filename_for_display (clean_filename_for_display s) =
      clean_filename_for_display s ∧
    ∀ c ∈ clean_filename_for_display s,
      is_safe_char c = true ∨ c = '[' ∨ c = '?' ∨ c = ']' := by
  by_cases hs : s = []
  · subst hs
    exact ⟨rfl, fun c hc => by simp [clean_filename_for_display] at hc⟩
  · obtain ⟨hne, hsafe, hok, hss, hh, hl, hchk⟩ :=
      clean_filename_canonical s _ hs rfl
    exact ⟨clean_filename_fixed _ hne hsafe hok hss hh hl hchk,
      fun c hc => Or.inl (hsafe c hc)⟩

/-- Witness for `clean_filename_idempotent_and_safe` at a name mixing
safe text, an unmapped emoji, spaces and a stray `?]`. -/
theorem clean_filename_idempotent_witness :
    clean_filename_for_display (clean_filename_for_display "a🧨b ?]x".data) =
      clean_filename_for_display "a🧨b ?]x".data ∧
    ('a' ∈ clean_filename_for_display "a🧨b ?]x".data →
      is_safe_char 'a' = true ∨ 'a' = '[' ∨ 'a' = '?' ∨ 'a' = ']') :=
  ⟨(clean_filename_idempotent_and_safe ("a🧨b ?]x".data)).1,
   fun h => (clean_filename_idempotent_and_safe ("a🧨b ?]x".data)).2 'a' h⟩

end AFingerprint
